import Mathlib

/-!
Verification of the agent-network validator, renderer and registry writer
(`coded_tools/agent_network_validator.py` and
`coded_tools/agent_network_designer/create_agent_network_hocon.py`).

The network definition is a Python dict mapping agent names to agent configs.
We embed it as an association list `Network` (insertion order is significant:
dict iteration order is insertion order).  An agent config carries an optional
`instructions` string and an optional `down_chains` list; an absent key and a
key bound to a falsy value are distinguished where the source distinguishes
them (`agent.get(k)` truthiness vs `agent["k"]` lookup).

Machine effects are made explicit: functions that can raise a Python exception
return `Option` (with `none` for the raised exception), the file system is an
explicit association list from path to content, and the DFS traversals are
given explicit fuel (`none` on fuel exhaustion); totality theorems below show
the fuel used by the embedding is always sufficient, which is the shallow
form of "the traversal terminates".
-/

/-- One agent config: the two keys the core reads.  `none` models an absent
dict key. -/
structure Agent where
  instructions : Option String
  down_chains : Option (List String)
deriving DecidableEq

/-- The agent-network definition: a Python dict from agent name to config,
as an insertion-ordered association list with (for actual dicts) distinct
keys. -/
abbrev Network := List (String × Agent)

/-- Python `dict.get(k)` / `dict[k]` on the network mapping. -/
def lookupA : Network → String → Option Agent
  | [], _ => none
  | (k2, v) :: rest, k => if k2 = k then some v else lookupA rest k

/-- Python `agent in self.network`. -/
def present (net : Network) (a : String) : Bool :=
  (lookupA net a).isSome

/-- `agent_config.get("down_chains", [])` for a config already in hand. -/
def agentDown (ag : Agent) : List String :=
  ag.down_chains.getD []

/-- Truthiness of `agent.get("down_chains")`: present and non-empty. -/
def downTruthy (ag : Agent) : Bool :=
  !(agentDown ag).isEmpty

/-- Truthiness of `agent.get("instructions")`: present and non-empty. -/
def instrTruthy (ag : Agent) : Bool :=
  match ag.instructions with
  | some s => !(s == "")
  | none => false

/-- Truthiness of `agent.get(keyword)` for the keywords the model carries.
Any other keyword is absent from the model, hence falsy. -/
def agentGetTruthy (ag : Agent) (k : String) : Bool :=
  if k = "instructions" then instrTruthy ag
  else if k = "down_chains" then downTruthy ag
  else false

/-- `self.network.get(agent, {}).get("down_chains", [])`. -/
def downD (net : Network) (a : String) : List String :=
  match lookupA net a with
  | some ag => agentDown ag
  | none => []

/-- The error message of `validate_network_keywords`. -/
def keywordMsg (n k : String) : String :=
  n ++ " has no key: " ++ k

/-- `AgentNetworkValidator.validate_network_keywords`: one message per agent
whose value under the keyword is falsy, in dict order. -/
def validateNetworkKeywords (net : Network) (k : String) : List String :=
  net.filterMap (fun p => if agentGetTruthy p.2 k then none else some (keywordMsg p.1 k))

/-- The `as_down_chains` set of `_find_all_top_agents`: every name listed in
the `down_chains` of an agent whose `down_chains` is truthy (an agent with a
falsy `down_chains` contributes nothing to either set). -/
def asDownChains : Network → List String
  | [] => []
  | p :: rest => (if downTruthy p.2 then agentDown p.2 else []) ++ asDownChains rest

/-- The `has_down_chains` set of `_find_all_top_agents`. -/
def hasDownChains (net : Network) : List String :=
  (net.filter (fun p => downTruthy p.2)).map Prod.fst

/-- `AgentNetworkValidator._find_all_top_agents`:
`has_down_chains - as_down_chains` (a set; here a duplicate-free list when the
dict keys are distinct). -/
def findAllTopAgents (net : Network) : List String :=
  (hasDownChains net).filter (fun k => decide (¬ k ∈ asDownChains net))

/-- Python `list.index`, returning `none` where Python raises `ValueError`. -/
def pyIndex : List String → String → Option Nat
  | [], _ => none
  | x :: rest, a => if x = a then some 0 else (pyIndex rest a).map (· + 1)

/-- The mutable `state` dict of the cycle DFS: 0 = unvisited, 1 = in
progress, 2 = done.  Only names that are keys of the network are ever
consulted, so a total function initialised to 0 is faithful. -/
abbrev StMap := String → Nat

/-- Pointwise update of the state dict. -/
def stSet (st : StMap) (a : String) (v : Nat) : StMap :=
  fun x => if x = a then v else st x

/-- The `for child_agent in down_chains` loop of `_dfs_cycle_detection`,
parametrised by the recursive call (`step`); children absent from the network
are skipped (`if child_agent in self.network`). -/
def dfsKids (net : Network)
    (step : String → List String → StMap → List String → Option (StMap × List String)) :
    List String → List String → StMap → List String → Option (StMap × List String)
  | [], _, st, cyc => some (st, cyc)
  | c :: cs, path1, st, cyc =>
    if present net c then
      match step c path1 st cyc with
      | none => none
      | some (st2, cyc2) => dfsKids net step cs path1 st2 cyc2
    else
      dfsKids net step cs path1 st cyc

/-- `AgentNetworkValidator._dfs_cycle_detection`.  The mutated arguments
(`path`, `state`, `cyclical_agents`) are threaded explicitly; `path` is
restored by the source before returning, so children receive the extended
path and the caller keeps its own.  `none` models either fuel exhaustion or
the `ValueError` of `path.index` (neither is reachable from the entry point,
as proved below). -/
def dfsCycle (net : Network) :
    Nat → String → List String → StMap → List String → Option (StMap × List String)
  | 0, _, _, _, _ => none
  | Nat.succ fuel, a, path, st, cyc =>
    if st a = 1 then
      match pyIndex path a with
      | none => none
      | some i => some (st, cyc ++ (path.drop i ++ [a]))
    else if st a = 2 then
      some (st, cyc)
    else
      match dfsKids net (fun c p s y => dfsCycle net fuel c p s y)
          (downD net a) (path ++ [a]) (stSet st a 1) cyc with
      | none => none
      | some (st2, cyc2) => some (stSet st2 a 2, cyc2)

/-- The `for agent in self.network.keys()` loop of `_find_cyclical_agents`:
start a DFS from every still-unvisited agent. -/
def cycLoop (net : Network) : List String → StMap → List String → Option (StMap × List String)
  | [], st, cyc => some (st, cyc)
  | k :: ks, st, cyc =>
    if st k = 0 then
      match dfsCycle net (net.length + 1) k [] st cyc with
      | none => none
      | some (st2, cyc2) => cycLoop net ks st2 cyc2
    else
      cycLoop net ks st cyc

/-- `AgentNetworkValidator._find_cyclical_agents`.  The collected
`cyclical_agents` set is kept as the list of elements added (possibly with
repetitions; only its membership is ever used). -/
def findCyclicalAgents (net : Network) : Option (List String) :=
  (cycLoop net (net.map Prod.fst) (fun _ => 0) []).map Prod.snd

/-- The `for child_agent in down_chains` loop of
`_dfs_reachability_traversal`, parametrised by the recursive call. -/
def reachKids
    (step : String → List String → List String → Option (List String × List String)) :
    List String → List String → List String → Option (List String × List String)
  | [], vis, reach => some (vis, reach)
  | c :: cs, vis, reach =>
    match step c vis reach with
    | none => none
    | some (v2, r2) => reachKids step cs v2 r2

/-- `AgentNetworkValidator._dfs_reachability_traversal`; `visited` and
`reachable_agents` are sets, kept as lists of the elements added. -/
def dfsReach (net : Network) :
    Nat → String → List String → List String → Option (List String × List String)
  | 0, _, _, _ => none
  | Nat.succ fuel, a, vis, reach =>
    if a ∈ vis ∨ ¬ present net a = true then
      some (vis, reach)
    else
      reachKids (fun c v r => dfsReach net fuel c v r) (downD net a) (a :: vis) (a :: reach)

/-- `AgentNetworkValidator._find_unreachable_agents`:
`all_agents - reachable_agents` as the network keys not in the reachable
set. -/
def findUnreachableAgents (net : Network) (top : String) : Option (List String) :=
  match dfsReach net (net.length + 1) top [] [] with
  | none => none
  | some (_, reach) => some ((net.map Prod.fst).filter (fun k => decide (¬ k ∈ reach)))

/-- Python string `<=` on code points, on the underlying character lists. -/
def lexLe : List Char → List Char → Bool
  | [], _ => true
  | _ :: _, [] => false
  | a :: as, b :: bs => if a < b then true else if a = b then lexLe as bs else false

/-- Python string `<=` (lexicographic by code point), the order `sorted`
uses. -/
def pyLe (a b : String) : Bool :=
  lexLe a.data b.data

/-- `pyLe` as a relation, for the sorting lemmas. -/
def pyLeP (a b : String) : Prop :=
  pyLe a b = true

instance : DecidableRel pyLeP :=
  fun a b => inferInstanceAs (Decidable (pyLe a b = true))

/-- Python `sorted` on a list of strings. -/
def pySortList (l : List String) : List String :=
  List.insertionSort pyLeP l

/-- Python `sorted` applied to a set, given the list of the elements of the
set (possibly with repetitions): sort the distinct elements. -/
def pySortedSet (l : List String) : List String :=
  pySortList l.dedup

/-- Python `repr` of a string (for the names appearing in defect messages:
plain names, single-quoted). -/
def pyStrLit (s : String) : String :=
  "\x27" ++ s ++ "\x27"

/-- `sep.join` of rendered items: empty for `[]`, no leading or trailing
separator. -/
def joinSep (sep : String) : List String → String
  | [] => ""
  | [x] => x
  | x :: y :: rest => x ++ sep ++ joinSep sep (y :: rest)

/-- Python `repr`/f-string rendering of a list of strings. -/
def pyListRepr (l : List String) : String :=
  "[" ++ joinSep ", " (l.map pyStrLit) ++ "]"

/-- "No top agent found in network". -/
def noTopMsg : String :=
  "No top agent found in network"

/-- The multiple-top-agents defect, over the sorted candidate set. -/
def multiTopMsg (cand : List String) : String :=
  "Multiple top agents found: " ++ pyListRepr (pySortedSet cand) ++ ". Expected exactly one."

/-- The cyclical-dependencies defect, over the sorted cycle-membership set. -/
def cycMsg (cyc : List String) : String :=
  "Cyclical dependencies found in agents: " ++ pyListRepr (pySortedSet cyc)

/-- The unreachable-agents defect, over the sorted unreachable set. -/
def unreachMsg (u : List String) : String :=
  "Unreachable agents found: " ++ pyListRepr (pySortedSet u)

/-- The top-agent block of the error list of `validate_network_structure`. -/
def topErrs (net : Network) : List String :=
  if (findAllTopAgents net).length = 0 then [noTopMsg]
  else if (findAllTopAgents net).length > 1 then [multiTopMsg (findAllTopAgents net)]
  else []

/-- The cycle block of the error list of `validate_network_structure`
(`if cyclical_agents:`). -/
def cycErrs (cyc : List String) : List String :=
  if cyc.isEmpty then [] else [cycMsg cyc]

/-- The unreachable block of the error list of `validate_network_structure`
(`if unreachable_agents:`). -/
def unreachErrs (u : List String) : List String :=
  if u.isEmpty then [] else [unreachMsg u]

/-- `AgentNetworkValidator.validate_network_structure`: top-agent defects,
then the cycle defect, then (only when there is exactly one top agent) the
unreachable defect. -/
def validateNetworkStructure (net : Network) : Option (List String) :=
  match findCyclicalAgents net with
  | none => none
  | some cyc =>
    match findAllTopAgents net with
    | [t] =>
      match findUnreachableAgents net t with
      | none => none
      | some u => some (topErrs net ++ cycErrs cyc ++ unreachErrs u)
    | _ => some (topErrs net ++ cycErrs cyc)

/-- `AgentNetworkValidator.get_top_agent`; `none` models the `ValueError`
raised when the top-agent count is not exactly one. -/
def getTopAgent (net : Network) : Option String :=
  match findAllTopAgents net with
  | [t] => some t
  | _ => none

/-- `HOCON_HEADER_START` from `create_agent_network_hocon.py`, verbatim. -/
def HOCON_HEADER_START : String :=
  "\x7b\n" ++
  "# Importing content from other HOCON files\n" ++
  "# The include keyword must be unquoted and followed by a quoted URL or file path.\n" ++
  "# File paths should be absolute or relative to the script\x27s working directory, not the HOCON file location.\n" ++
  "# This \"aaosa.hocon\" file contains key-value pairs used for substitution.\n" ++
  "# Specifically, it provides values for the following keys:\n" ++
  "#   - aaosa_call\n" ++
  "#   - aaosa_command\n" ++
  "#   - aaosa_instructions\n" ++
  "# IMPORTANT:\n" ++
  "# Ensure that you run `python -m run` from the top level of the repository.\n" ++
  "# The path to this substitution file is **relative to the top-level directory**,\n" ++
  "# so running the script from elsewhere may result in file not found errors.\n" ++
  "    include \"registries/aaosa.hocon\"\n" ++
  "    \"llm_config\": \x7b\n" ++
  "        \"model_name\": \"gpt-4o\",\n" ++
  "    \x7d,\n" ++
  "   \"instructions_prefix\": \"\"\"\n" ++
  "You are part of a "

/-- `HOCON_HEADER_REMAINDER`, verbatim. -/
def HOCON_HEADER_REMAINDER : String :=
  " of assistants.\n" ++
  "Only answer inquiries that are directly within your area of expertise.\n" ++
  "Do not try to help for other matters.\n" ++
  "Do not mention what you can NOT do. Only mention what you can do.\n" ++
  "\"\"\",\n" ++
  "   \"demo_mode\": \"You are part of a demo system, so when queried, make up a realistic response as if you " ++
  "are actually grounded in real data or you are operating a real application API or microservice.\"\n" ++
  "\"tools\": [\n"

/-- `TOP_AGENT_TEMPLATE` with its three `%s` holes applied
(name, instructions, tools). -/
def TOP_AGENT_TEMPLATE (n i t : String) : String :=
  "        \x7b\n" ++
  "            \"name\": \"" ++ n ++ "\",\n" ++
  "            \"function\": \x7b\n" ++
  "                \"description\": \"\"\"\n" ++
  "An assistant that answer inquiries from the user.\n" ++
  "                \"\"\"\n" ++
  "            \x7d,\n" ++
  "            \"instructions\": $\x7binstructions_prefix\x7d \"\"\"\n" ++
  i ++ "\n" ++
  "\"\"\" $\x7baaosa_instructions\x7d,\n" ++
  "            \"tools\": [" ++ t ++ "]\n" ++
  "        \x7d,\n"

/-- `REGULAR_AGENT_TEMPLATE` with its three `%s` holes applied. -/
def REGULAR_AGENT_TEMPLATE (n i t : String) : String :=
  "        \x7b\n" ++
  "            \"name\": \"" ++ n ++ "\",\n" ++
  "            \"function\": $\x7baaosa_call\x7d,\n" ++
  "            \"instructions\": $\x7binstructions_prefix\x7d \"\"\"\n" ++
  i ++ "\n" ++
  "\"\"\" $\x7baaosa_instructions\x7d,\n" ++
  "            \"command\": $\x7baaosa_command\x7d,\n" ++
  "            \"tools\": [" ++ t ++ "]\n" ++
  "        \x7d,\n"

/-- `LEAF_NODE_AGENT_TEMPLATE` with its two `%s` holes applied; it has no
`"tools"` field. -/
def LEAF_NODE_AGENT_TEMPLATE (n i : String) : String :=
  "        \x7b\n" ++
  "            \"name\": \"" ++ n ++ "\",\n" ++
  "            \"function\": $\x7baaosa_call\x7d,\n" ++
  "            \"instructions\": $\x7binstructions_prefix\x7d $\x7bdemo_mode\x7d \"\"\"\n" ++
  i ++ "\n" ++
  "\"\"\",\n" ++
  "        \x7d,\n"

/-- A down-chain name wrapped in double quotes. -/
def quoteName (s : String) : String :=
  "\"" ++ s ++ "\""

/-- The `for j, down_chain in enumerate(...)` accumulation of the `tools`
string: each child quoted, a comma after every child except the last. -/
def toolsGo : List String → Nat → Nat → String
  | [], _, _ => ""
  | d :: rest, total, j =>
    "\"" ++ d ++ "\"" ++ (if j < total - 1 then "," else "") ++ toolsGo rest total (j + 1)

/-- The `tools` string for one agent: built only when
`agent.get("down_chains")` is truthy, otherwise left `""`. -/
def toolsFor (ag : Agent) : String :=
  if downTruthy ag then toolsGo (agentDown ag) (agentDown ag).length 0 else ""

/-- The per-agent block of the rendering loop: template selected by role;
`none` models the `KeyError` of `agent["instructions"]`. -/
def renderBlock (top n : String) (ag : Agent) : Option String :=
  match ag.instructions with
  | none => none
  | some i =>
    some (if n = top then TOP_AGENT_TEMPLATE n i (toolsFor ag)
          else if downTruthy ag then REGULAR_AGENT_TEMPLATE n i (toolsFor ag)
          else LEAF_NODE_AGENT_TEMPLATE n i)

/-- The rendering loop over the (possibly reordered) network items,
concatenating the per-agent blocks. -/
def renderAgents (top : String) : Network → Option String
  | [] => some ""
  | (n, ag) :: rest =>
    match renderBlock top n ag with
    | none => none
    | some b => (renderAgents top rest).map (fun r => b ++ r)

/-- `network_def.pop(top_agent_name)` on a dict with distinct keys: remove
the entry under that key. -/
def eraseKeyNet (net : Network) (k : String) : Network :=
  net.filter (fun p => decide (¬ p.1 = k))

/-- `CreateAgentNetworkHocon.get_agent_network_hocon`.  Returns the rendered
document together with the network mapping of the validator as it stands after
the call: `network_def.pop` mutates `validator.network` in place, while the
subsequent `{top: ..., **network_def}` rebinds only the local name, so when
the top agent is not the first key the validator keeps the popped (top-less)
dict.  `none` models the `ValueError` of `get_top_agent` or the `KeyError`
of `agent["instructions"]`.  (The inner `lookupA ... | none` arm is
unreachable: the top agent is always a key of the network; the Python
`pop` would raise there.) -/
def getAgentNetworkHocon (net : Network) (name : String) : Option (String × Network) :=
  match getTopAgent net with
  | none => none
  | some top =>
    let moved : Network × Network :=
      match net with
      | [] => (net, net)
      | (k0, _) :: _ =>
        if top = k0 then (net, net)
        else
          match lookupA net top with
          | none => (net, net)
          | some cfg => ((top, cfg) :: eraseKeyNet net top, eraseKeyNet net top)
    match renderAgents top moved.1 with
    | none => none
    | some blocks =>
      some (HOCON_HEADER_START ++ name ++ HOCON_HEADER_REMAINDER ++ blocks ++ "]\n\x7d\n",
            moved.2)

/-- `OUTPUT_PATH`. -/
def OUTPUT_PATH : String :=
  "registries/"

/-- The manifest entry line for a network name: four spaces, the quoted
hocon filename, a colon, `true` and a trailing comma. -/
def manifestEntry (name : String) : String :=
  "    \"" ++ name ++ ".hocon\": true,"

/-- The quoted hocon filename whose containment is checked before
inserting into the manifest. -/
def quotedHocon (name : String) : String :=
  "\"" ++ name ++ ".hocon\""

/-- Python substring containment (`needle in hay`). -/
def pyIn (needle hay : String) : Prop :=
  needle.data <:+: hay.data

instance (n h : String) : Decidable (pyIn n h) :=
  inferInstanceAs (Decidable (n.data <:+: h.data))

/-- `manifest_content.rfind("}")`: split at the LAST closing brace,
`some (before, after)` with `content = before ++ "\x7d" ++ after`, `none` when
there is no closing brace (`rfind` returns -1). -/
def rfindBrace : List Char → Option (List Char × List Char)
  | [] => none
  | c :: rest =>
    match rfindBrace rest with
    | some (b, a) => some (c :: b, a)
    | none => if c = '\x7d' then some ([], rest) else none

/-- The manifest update of `modify_registry`, on the manifest content as a
string: insert the new entry just before the final closing brace, but only
when the quoted filename does not already occur as a substring; otherwise
(and also when there is no closing brace) leave the content unchanged. -/
def updateManifest (m name : String) : String :=
  match rfindBrace m.data with
  | none => m
  | some (b, a) =>
    if pyIn (quotedHocon name) m then m
    else String.mk (b ++ ('\n' :: (manifestEntry name).data) ++ ('\x7d' :: a))

/-- The file system, path to content. -/
abbrev FileSys := List (String × String)

/-- Read a file (`open(path, "r")`); `none` models `FileNotFoundError`. -/
def fsRead : FileSys → String → Option String
  | [], _ => none
  | (q, d) :: rest, p => if q = p then some d else fsRead rest p

/-- Write a file (`open(path, "w")`), overwriting unconditionally. -/
def fsWrite : FileSys → String → String → FileSys
  | [], p, c => [(p, c)]
  | (q, d) :: rest, p, c => if q = p then (p, c) :: rest else (q, d) :: fsWrite rest p c

/-- `modify_registry`: write the document artifact, then read the manifest
and write back its updated content.  `none` models the manifest read
failing.  (When no entry is inserted the write-back stores the unchanged
content, which is the same file-system state the source leaves by not
writing.) -/
def modifyRegistry (fs : FileSys) (hocon name : String) : Option FileSys :=
  let fs1 := fsWrite fs (OUTPUT_PATH ++ name ++ ".hocon") hocon
  match fsRead fs1 (OUTPUT_PATH ++ "manifest.hocon") with
  | none => none
  | some m => some (fsWrite fs1 (OUTPUT_PATH ++ "manifest.hocon") (updateManifest m name))

/-- A value stored in `sly_data`: the network definition under
`"agent_network_definition"` is a dict, the name written under
`"agent_network_name"` is a string. -/
inductive SlyVal where
  | vnet (n : Network)
  | vstr (s : String)
deriving DecidableEq

/-- `sly_data`, a dict. -/
abbrev SlyData := List (String × SlyVal)

/-- `sly_data.get(k)`. -/
def slyLookup : SlyData → String → Option SlyVal
  | [], _ => none
  | (k2, v) :: rest, k => if k2 = k then some v else slyLookup rest k

/-- `sly_data[k] = v`: update in place when the key exists, else append. -/
def slySet : SlyData → String → SlyVal → SlyData
  | [], k, v => [(k, v)]
  | (k2, v2) :: rest, k, v =>
    if k2 = k then (k, v) :: rest else (k2, v2) :: slySet rest k v

/-- Python `repr` of one agent config (for the success message; field order
follows the fixed field order of the model). -/
def pyAgentRepr (ag : Agent) : String :=
  "\x7b" ++ joinSep ", "
    ((match ag.instructions with
      | some s => ["\x27instructions\x27: " ++ pyStrLit s]
      | none => []) ++
     (match ag.down_chains with
      | some l => ["\x27down_chains\x27: " ++ pyListRepr l]
      | none => []))
  ++ "\x7d"

/-- Python `repr` of the network definition dict. -/
def pyNetRepr (net : Network) : String :=
  "\x7b" ++ joinSep ", " (net.map (fun p => pyStrLit p.1 ++ ": " ++ pyAgentRepr p.2)) ++ "\x7d"

/-- The success message of `async_invoke` (including the missing space of
the source after the name); `net` is the local `network_def` dict, which at this
point may have had its top agent popped by `get_agent_network_hocon`. -/
def successMsg (name : String) (net : Network) : String :=
  "The agent network HOCON file for " ++ name ++
    "has been successfully created from the agent network definition: " ++ pyNetRepr net ++ "."

/-- `CreateAgentNetworkHocon.async_invoke`.  `argName` is
`args.get("agent_network_name")`; the result carries the returned string,
the final `sly_data` and the final file system.  The `deepcopy` of the
definition is implicit in the embedding: `ndef` is an immutable value, so
validating and rendering it cannot affect `sly`.  `none` models an uncaught
exception (a truthy non-dict definition, or a storage fault). -/
def asyncInvoke (argName : Option String) (sly : SlyData) (fs : FileSys) :
    Option (String × SlyData × FileSys) :=
  match slyLookup sly "agent_network_definition" with
  | none => some ("Error: No network in sly data!", sly, fs)
  | some (SlyVal.vstr s) =>
    if s = "" then some ("Error: No network in sly data!", sly, fs)
    else none
  | some (SlyVal.vnet ndef) =>
    if ndef.isEmpty then some ("Error: No network in sly data!", sly, fs)
    else
      match validateNetworkStructure ndef with
      | none => none
      | some structErrs =>
        let errList := structErrs ++ validateNetworkKeywords ndef "instructions"
        if ¬ errList.isEmpty then some ("Error: " ++ pyListRepr errList, sly, fs)
        else
          match argName with
          | none => some ("Error: No agent_name provided.", sly, fs)
          | some nm =>
            if nm = "" then some ("Error: No agent_name provided.", sly, fs)
            else
              let sly1 := slySet sly "agent_network_name" (SlyVal.vstr nm)
              match getAgentNetworkHocon ndef nm with
              | none => none
              | some (doc, ndefAfter) =>
                match modifyRegistry fs doc nm with
                | none => none
                | some fs1 => some (successMsg nm ndefAfter, sly1, fs1)

/-! ### Specification-side notions (graph edges, cycles, reachability) -/

/-- A `down_chains` edge between agents present in the mapping. -/
def isEdge (net : Network) (u v : String) : Prop :=
  present net u = true ∧ present net v = true ∧ v ∈ downD net u

/-- `chainFrom net u l`: starting at `u`, the names in `l` are visited in
order along `down_chains` edges. -/
def chainFrom (net : Network) : String → List String → Prop
  | _, [] => True
  | u, v :: rest => isEdge net u v ∧ chainFrom net v rest

/-- `x` lies on some directed cycle of `down_chains` edges between agents
present in the mapping: a non-empty edge walk from `x` back to `x`. -/
def OnCycle (net : Network) (x : String) : Prop :=
  ∃ l : List String, l ≠ [] ∧ chainFrom net x l ∧ l.getLast? = some x

/-- `x` is reachable from `r` via `down_chains` edges (reflexively). -/
def Reaches (net : Network) (r x : String) : Prop :=
  ∃ l : List String, chainFrom net r l ∧ l.getLastD r = x

/-- The current DFS `path` is an edge walk (each consecutive pair is an
edge). -/
def isChainP (net : Network) : List String → Prop
  | [] => True
  | x :: rest => chainFrom net x rest

/-- `x` has a non-empty `down_chains` list in the mapping. -/
def hasNonemptyDown (net : Network) (x : String) : Prop :=
  ∃ ag, lookupA net x = some ag ∧ agentDown ag ≠ []

/-- `x` is named in the `down_chains` of some agent. -/
def namedInDown (net : Network) (x : String) : Prop :=
  ∃ p, p ∈ net ∧ x ∈ agentDown p.2

/-- Python `str.startswith`. -/
def pyStarts (s p : String) : Prop :=
  p.data <+: s.data

/-- Number of still-unvisited entries of the state dict over the network
keys (the fuel measure of the cycle DFS). -/
def unvisitedCount (net : Network) (st : StMap) : Nat :=
  ((net.map Prod.fst).filter (fun k => decide (st k = 0))).length

/-- Number of presently unvisited keys (the fuel measure of the
reachability DFS). -/
def unvisCount (net : Network) (vis : List String) : Nat :=
  ((net.map Prod.fst).filter (fun k => decide (¬ k ∈ vis))).length

/-! ### Concrete example networks -/

/-- A 3-cycle `A → B → C → A` plus an agent `D` outside the cycle, with no
other edges. -/
def exCycleNet : Network :=
  [("A", ⟨some "i", some ["B"]⟩), ("B", ⟨some "i", some ["C"]⟩),
   ("C", ⟨some "i", some ["A"]⟩), ("D", ⟨some "i", none⟩)]

/-- `A → B`, `B → C`, `B → D`, `C → A`, `D → C`: every agent lies on a
cycle (`D` via `B → D → C → A → B`), but the DFS finishes `C` before the
walk through `D` reaches it. -/
def exMissedNet : Network :=
  [("A", ⟨some "i", some ["B"]⟩), ("B", ⟨some "i", some ["C", "D"]⟩),
   ("C", ⟨some "i", some ["A"]⟩), ("D", ⟨some "i", some ["C"]⟩)]

/-- The valid rooted tree of the spec: `R → {B, C}`, `B → {D}`, `C`, `D` leaves. -/
def exTreeNet : Network :=
  [("R", ⟨some "r", some ["B", "C"]⟩), ("B", ⟨some "b", some ["D"]⟩),
   ("C", ⟨some "c", none⟩), ("D", ⟨some "d", none⟩)]

/-- The same tree plus a disconnected agent `E`. -/
def exTreeENet : Network :=
  exTreeNet ++ [("E", ⟨some "e", none⟩)]

/-- Two disjoint rooted components: `R1 → X` and `R2 → Y`. -/
def exTwoRootsNet : Network :=
  [("R1", ⟨some "i", some ["X"]⟩), ("X", ⟨some "i", none⟩),
   ("R2", ⟨some "i", some ["Y"]⟩), ("Y", ⟨some "i", none⟩)]

/-- A valid network whose top agent `A` is not the first key. -/
def exMovedNet : Network :=
  [("B", ⟨some "b", none⟩), ("A", ⟨some "a", some ["B"]⟩)]

/-- The 3-node tree of the spec in declaration order root-first: `R → {B, C}`,
`B` and `C` leaves. -/
def exSmallTreeNet : Network :=
  [("R", ⟨some "r", some ["B", "C"]⟩), ("B", ⟨some "b", none⟩), ("C", ⟨some "c", none⟩)]

/-- A network with a dangling reference: `A → {B, Zed}` where `Zed` is not a
key. -/
def exDangleNet : Network :=
  [("A", ⟨some "a", some ["B", "Zed"]⟩), ("B", ⟨some "b", none⟩)]

/-- `agent["instructions"]` once known to be present (specification-side
total version, used to state the rendering theorems). -/
def instrD (ag : Agent) : String :=
  ag.instructions.getD ""

/-- The block the rendering loop emits for one agent whose instructions are
present: exactly one of the three templates, selected by role. -/
def blockStr (top n : String) (ag : Agent) (i : String) : String :=
  if n = top then TOP_AGENT_TEMPLATE n i (toolsFor ag)
  else if downTruthy ag then REGULAR_AGENT_TEMPLATE n i (toolsFor ag)
  else LEAF_NODE_AGENT_TEMPLATE n i

/-- Concatenation of a list of strings (the document is the concatenation
of the per-agent blocks). -/
def strConcat : List String → String
  | [] => ""
  | s :: rest => s ++ strConcat rest

/-- A sly_data carrying the small tree as its agent network definition. -/
def exSly : SlyData :=
  [("agent_network_definition", SlyVal.vnet exSmallTreeNet)]

/-- A file system holding an empty manifest. -/
def exFs : FileSys :=
  [("registries/manifest.hocon", "\x7b\n\x7d\n")]

/-! ### Basic lemmas about the embedded data model -/

theorem lookupA_isSome_iff (net : Network) (k : String) :
    (lookupA net k).isSome = true ↔ k ∈ net.map Prod.fst := by
  induction net with
  | nil => simp [lookupA]
  | cons p rest ih =>
    obtain ⟨k2, v⟩ := p
    by_cases h : k2 = k
    · subst h
      simp [lookupA]
    · simp [lookupA, h, ih, Ne.symm h]

theorem present_iff_mem (net : Network) (k : String) :
    present net k = true ↔ k ∈ net.map Prod.fst :=
  lookupA_isSome_iff net k

theorem lookupA_mem (net : Network) (k : String) (v : Agent)
    (h : lookupA net k = some v) : (k, v) ∈ net := by
  induction net with
  | nil => simp [lookupA] at h
  | cons p rest ih =>
    obtain ⟨k2, v2⟩ := p
    by_cases hk : k2 = k
    · subst hk
      simp [lookupA] at h
      simp [h]
    · simp [lookupA, hk] at h
      exact List.mem_cons_of_mem _ (ih h)

theorem lookupA_of_mem (net : Network) (k : String) (v : Agent)
    (hnd : (net.map Prod.fst).Nodup) (h : (k, v) ∈ net) : lookupA net k = some v := by
  induction net with
  | nil => simp at h
  | cons p rest ih =>
    obtain ⟨k2, v2⟩ := p
    simp only [List.map_cons, List.nodup_cons] at hnd
    rcases List.mem_cons.mp h with h1 | h1
    · injection h1 with hk hv
      subst hk
      subst hv
      simp [lookupA]
    · have hne : k2 ≠ k := by
        intro he
        subst he
        exact hnd.1 (List.mem_map.mpr ⟨(k2, v), h1, rfl⟩)
      simp [lookupA, hne]
      exact ih hnd.2 h1

theorem downD_ne_nil_present (net : Network) (a : String)
    (h : downD net a ≠ []) : present net a = true := by
  unfold downD at h
  unfold present
  cases hl : lookupA net a with
  | none => rw [hl] at h; exact absurd rfl h
  | some ag => simp

theorem downD_eq_of_lookup (net : Network) (a : String) (ag : Agent)
    (h : lookupA net a = some ag) : downD net a = agentDown ag := by
  unfold downD
  rw [h]

theorem pyIndex_of_mem (l : List String) (a : String) (h : a ∈ l) :
    ∃ i, pyIndex l a = some i := by
  induction l with
  | nil => simp at h
  | cons x rest ih =>
    by_cases hx : x = a
    · exact ⟨0, by simp [pyIndex, hx]⟩
    · rcases List.mem_cons.mp h with h1 | h1
      · exact absurd h1.symm hx
      · obtain ⟨i, hi⟩ := ih h1
        exact ⟨i + 1, by simp [pyIndex, hx, hi]⟩

theorem pyIndex_drop (l : List String) (a : String) (i : Nat)
    (h : pyIndex l a = some i) : ∃ t, l.drop i = a :: t := by
  induction l generalizing i with
  | nil => simp [pyIndex] at h
  | cons x rest ih =>
    by_cases hx : x = a
    · simp [pyIndex, hx] at h
      subst h
      exact ⟨rest, by simp [hx]⟩
    · simp [pyIndex, hx] at h
      obtain ⟨j, hj, hji⟩ := h
      obtain ⟨t, ht⟩ := ih j hj
      exact ⟨t, by rw [← hji]; simpa using ht⟩

theorem filter_length_mono (l : List String) (p q : String → Bool)
    (h : ∀ x, p x = true → q x = true) :
    (l.filter p).length ≤ (l.filter q).length := by
  induction l with
  | nil => simp
  | cons x xs ih =>
    by_cases hp : p x = true
    · simp [List.filter_cons, hp, h x hp]
      omega
    · simp only [List.filter_cons]
      cases hq : q x <;> simp [hp] <;> omega

theorem filter_length_lt (l : List String) (p q : String → Bool) (a : String)
    (ha : a ∈ l) (hpa : p a = false) (hqa : q a = true)
    (h : ∀ x, p x = true → q x = true) :
    (l.filter p).length < (l.filter q).length := by
  induction l with
  | nil => simp at ha
  | cons x xs ih =>
    rcases List.mem_cons.mp ha with h1 | h1
    · subst h1
      simp [List.filter_cons, hpa, hqa]
      calc (xs.filter p).length < (xs.filter p).length + 1 := Nat.lt_succ_self _
        _ ≤ (xs.filter q).length + 1 := by
            have := filter_length_mono xs p q h
            omega
    · have hlt := ih h1
      by_cases hp : p x = true
      · simp [List.filter_cons, hp, h x hp]
        omega
      · simp only [List.filter_cons]
        cases hq : q x <;> simp [hp] <;> omega

/-! ### Walks, cycles and rotation -/

theorem chainFrom_append (net : Network) (l1 : List String) :
    ∀ u l2, chainFrom net u l1 → chainFrom net (l1.getLastD u) l2 →
    chainFrom net u (l1 ++ l2) := by
  induction l1 with
  | nil => intro u l2 _ h2; simpa using h2
  | cons w l1' ih =>
    intro u l2 h1 h2
    obtain ⟨he, hc⟩ := h1
    rw [List.getLastD_cons] at h2
    exact ⟨he, ih w l2 hc h2⟩

theorem chainFrom_snoc (net : Network) (l : List String) :
    ∀ u v, chainFrom net u l → isEdge net (l.getLastD u) v →
    chainFrom net u (l ++ [v]) := by
  intro u v h1 h2
  exact chainFrom_append net l u [v] h1 ⟨h2, trivial⟩

theorem chainFrom_split (net : Network) (l1 : List String) :
    ∀ u x l2, chainFrom net u (l1 ++ x :: l2) →
    chainFrom net u (l1 ++ [x]) ∧ chainFrom net x l2 := by
  induction l1 with
  | nil =>
    intro u x l2 h
    obtain ⟨he, hc⟩ := h
    exact ⟨⟨he, trivial⟩, hc⟩
  | cons w l1' ih =>
    intro u x l2 h
    obtain ⟨he, hc⟩ := h
    obtain ⟨ha, hb⟩ := ih w x l2 hc
    exact ⟨⟨he, ha⟩, hb⟩

theorem isChainP_of_chainFrom (net : Network) (x : String) (l : List String)
    (h : chainFrom net x l) : isChainP net l := by
  cases l with
  | nil => trivial
  | cons v rest => exact h.2

theorem isChainP_drop (net : Network) (i : Nat) :
    ∀ l, isChainP net l → isChainP net (l.drop i) := by
  induction i with
  | zero => intro l h; simpa using h
  | succ j ih =>
    intro l h
    cases l with
    | nil => trivial
    | cons x rest =>
      simp only [List.drop_succ_cons]
      exact ih rest (isChainP_of_chainFrom net x rest h)

theorem getLastD_drop (l : List String) (i : Nat) (d : String)
    (h : l.drop i ≠ []) : (l.drop i).getLastD d = l.getLastD d := by
  induction l generalizing i with
  | nil => simp at h
  | cons x rest ih =>
    cases i with
    | zero => simp
    | succ j =>
      simp only [List.drop_succ_cons] at h ⊢
      rw [ih j h]
      rw [List.getLastD_cons]
      cases hr : rest with
      | nil => rw [hr] at h; simp at h
      | cons y t => simp [List.getLastD]

theorem isChainP_snoc (net : Network) (path : List String) (a : String)
    (hch : isChainP net path)
    (hlink : path ≠ [] → isEdge net (path.getLastD "") a) :
    isChainP net (path ++ [a]) := by
  cases path with
  | nil => trivial
  | cons x rest =>
    have he := hlink (by simp)
    rw [List.getLastD_cons] at he
    exact chainFrom_snoc net rest x a hch he

theorem onCycle_of_closedWalk (net : Network) (a : String) (w : List String)
    (hch : chainFrom net a w) (hlast : w.getLast? = some a) :
    ∀ x ∈ a :: w, OnCycle net x := by
  intro x hx
  have hwne : w ≠ [] := by
    intro he
    rw [he] at hlast
    simp at hlast
  rcases List.mem_cons.mp hx with h1 | h1
  · exact ⟨w, hwne, h1 ▸ hch, h1 ▸ hlast⟩
  · obtain ⟨t1, t2, hw⟩ := List.append_of_mem h1
    subst hw
    obtain ⟨hfront, hback⟩ := chainFrom_split net t1 a x t2 hch
    cases ht2 : t2 with
    | nil =>
      have hxa : x = a := by
        subst ht2
        rw [List.getLast?_append_of_ne_nil t1 (by simp)] at hlast
        simpa using hlast
      subst hxa
      exact ⟨t1 ++ [x], by simp, hfront, by simp⟩
    | cons y t2' =>
      subst ht2
      have hta : (y :: t2').getLastD x = a := by
        have h2 : (y :: t2').getLast? = some a := by
          rw [List.getLast?_append_of_ne_nil t1 (by simp), List.getLast?_cons_cons] at hlast
          exact hlast
        rw [List.getLastD_eq_getLast?, h2]
        rfl
      have hlx : ((y :: t2') ++ (t1 ++ [x])).getLast? = some x := by
        rw [List.getLast?_append_of_ne_nil (y :: t2') (by simp)]
        rw [List.getLast?_append_of_ne_nil t1 (by simp)]
        rfl
      refine ⟨(y :: t2') ++ (t1 ++ [x]), by simp, ?_, hlx⟩
      exact chainFrom_append net (y :: t2') x (t1 ++ [x]) hback (by rw [hta]; exact hfront)

theorem onCycle_present (net : Network) (x : String) (h : OnCycle net x) :
    present net x = true := by
  obtain ⟨l, hne, hch, _⟩ := h
  cases l with
  | nil => exact absurd rfl hne
  | cons v rest => exact hch.1.1

theorem reaches_self (net : Network) (r : String) : Reaches net r r :=
  ⟨[], trivial, rfl⟩

theorem reaches_step (net : Network) (a c x : String)
    (he : isEdge net a c) (h : Reaches net c x) : Reaches net a x := by
  obtain ⟨l, hch, hl⟩ := h
  refine ⟨c :: l, ⟨he, hch⟩, ?_⟩
  rw [List.getLastD_cons]
  exact hl

/-! ### The code-point order used by `sorted` -/

theorem lexLe_total : ∀ a b : List Char, lexLe a b = true ∨ lexLe b a = true := by
  intro a
  induction a with
  | nil => intro b; left; rfl
  | cons x xs ih =>
    intro b
    cases b with
    | nil => right; rfl
    | cons y ys =>
      rcases lt_trichotomy x y with h | h | h
      · left; simp [lexLe, h]
      · subst h
        rcases ih ys with h2 | h2
        · left; simp [lexLe, h2]
        · right; simp [lexLe, h2]
      · right; simp [lexLe, h]

theorem lexLe_trans : ∀ a b c : List Char,
    lexLe a b = true → lexLe b c = true → lexLe a c = true := by
  intro a
  induction a with
  | nil => intro b c _ _; rfl
  | cons x xs ih =>
    intro b c hab hbc
    cases b with
    | nil => simp [lexLe] at hab
    | cons y ys =>
      cases c with
      | nil => simp [lexLe] at hbc
      | cons z zs =>
        simp only [lexLe] at hab hbc ⊢
        by_cases hxy : x < y
        · by_cases hyz : y < z
          · simp [lt_trans hxy hyz]
          · simp [hxy] at hab
            by_cases hyz2 : y = z
            · subst hyz2; simp [hxy]
            · simp [hyz, hyz2] at hbc
        · by_cases hxy2 : x = y
          · subst hxy2
            simp [hxy] at hab
            by_cases hxz : x < z
            · simp [hxz]
            · by_cases hxz2 : x = z
              · subst hxz2
                simp [hxz] at hbc ⊢
                exact ih ys zs hab hbc
              · simp [hxz, hxz2] at hbc
          · simp [hxy, hxy2] at hab

instance : IsTotal String pyLeP :=
  ⟨fun a b => lexLe_total a.data b.data⟩

instance : IsTrans String pyLeP :=
  ⟨fun a b c => lexLe_trans a.data b.data c.data⟩

theorem mem_pySortList (l : List String) (x : String) :
    x ∈ pySortList l ↔ x ∈ l :=
  List.mem_insertionSort pyLeP

theorem mem_pySortedSet (l : List String) (x : String) :
    x ∈ pySortedSet l ↔ x ∈ l := by
  unfold pySortedSet
  rw [mem_pySortList, List.mem_dedup]

theorem sorted_pySortedSet (l : List String) :
    List.Sorted pyLeP (pySortedSet l) :=
  List.sorted_insertionSort pyLeP l.dedup

theorem nodup_pySortedSet (l : List String) :
    (pySortedSet l).Nodup :=
  ((List.perm_insertionSort pyLeP l.dedup).nodup_iff).mpr l.nodup_dedup

/-! ### Messages are pairwise distinct (distinct leading characters) -/

theorem strNe_of_headNe (s t : String) (h : s.data.head? ≠ t.data.head?) : s ≠ t := by
  intro he
  exact h (by rw [he])

theorem noTopMsg_ne_multi (c : List String) : noTopMsg ≠ multiTopMsg c :=
  strNe_of_headNe _ _ (by unfold noTopMsg multiTopMsg; intro h; simp at h)

theorem noTopMsg_ne_cyc (c : List String) : noTopMsg ≠ cycMsg c :=
  strNe_of_headNe _ _ (by unfold noTopMsg cycMsg; intro h; simp at h)

theorem noTopMsg_ne_unreach (c : List String) : noTopMsg ≠ unreachMsg c :=
  strNe_of_headNe _ _ (by unfold noTopMsg unreachMsg; intro h; simp at h)

theorem multiTopMsg_ne_cyc (c d : List String) : multiTopMsg c ≠ cycMsg d :=
  strNe_of_headNe _ _ (by unfold multiTopMsg cycMsg; intro h; simp at h)

theorem multiTopMsg_ne_unreach (c d : List String) : multiTopMsg c ≠ unreachMsg d :=
  strNe_of_headNe _ _ (by unfold multiTopMsg unreachMsg; intro h; simp at h)

theorem cycMsg_ne_unreach (c d : List String) : cycMsg c ≠ unreachMsg d :=
  strNe_of_headNe _ _ (by unfold cycMsg unreachMsg; intro h; simp at h)

/-! ### Termination of the cycle DFS: the fuel is always sufficient -/

theorem stSet_self (st : StMap) (a : String) (v : Nat) : stSet st a v a = v := by
  simp [stSet]

theorem stSet_other (st : StMap) (a : String) (v : Nat) (k : String) (h : k ≠ a) :
    stSet st a v k = st k := by
  simp [stSet, h]

theorem unvisitedCount_mono (net : Network) (st st' : StMap)
    (h : ∀ k, st' k = 0 → st k = 0) :
    unvisitedCount net st' ≤ unvisitedCount net st := by
  apply filter_length_mono
  intro x hx
  simp only [decide_eq_true_eq] at hx ⊢
  exact h x hx

theorem unvisitedCount_le (net : Network) (st : StMap) :
    unvisitedCount net st ≤ net.length := by
  calc unvisitedCount net st ≤ (net.map Prod.fst).length := List.length_filter_le _ _
    _ = net.length := List.length_map _ _

theorem unvisitedCount_stSet_lt (net : Network) (st : StMap) (a : String)
    (ha : a ∈ net.map Prod.fst) (h0 : st a = 0) :
    unvisitedCount net (stSet st a 1) < unvisitedCount net st := by
  apply filter_length_lt _ _ _ a ha
  · simp [stSet]
  · simp [h0]
  · intro x hx
    simp only [decide_eq_true_eq] at hx ⊢
    by_cases hxa : x = a
    · subst hxa
      simp [stSet] at hx
    · rwa [stSet_other _ _ _ _ hxa] at hx

theorem dfsCycle_total (net : Network) : ∀ fuel a path st cyc,
    (∀ k, st k = 1 → k ∈ path) → (∀ k, st k ≤ 2) →
    unvisitedCount net st + 1 ≤ fuel →
    ∃ st2 cyc2, dfsCycle net fuel a path st cyc = some (st2, cyc2) ∧
      (∀ k, (st2 k = 1 ↔ st k = 1)) ∧ (∀ k, st2 k = 0 → st k = 0) ∧ (∀ k, st2 k ≤ 2) := by
  intro fuel
  induction fuel with
  | zero =>
    intro a path st cyc _ _ hc
    omega
  | succ fuel ih =>
    intro a path st cyc h1 h2 hc
    by_cases hs1 : st a = 1
    · obtain ⟨i, hi⟩ := pyIndex_of_mem path a (h1 a hs1)
      refine ⟨st, cyc ++ (path.drop i ++ [a]), ?_, fun k => Iff.rfl, fun k h => h, h2⟩
      simp [dfsCycle, hs1, hi]
    · by_cases hs2 : st a = 2
      · refine ⟨st, cyc, ?_, fun k => Iff.rfl, fun k h => h, h2⟩
        simp [dfsCycle, hs1, hs2]
      · have hs0 : st a = 0 := by
          have := h2 a
          omega
        have hkids : ∀ cs st' cyc',
            (∀ k, (st' k = 1 ↔ stSet st a 1 k = 1)) →
            (∀ k, st' k = 0 → stSet st a 1 k = 0) →
            (∀ k, st' k ≤ 2) →
            (cs ≠ [] → unvisitedCount net (stSet st a 1) + 1 ≤ fuel) →
            ∃ st2 cyc2,
              dfsKids net (fun c p s y => dfsCycle net fuel c p s y) cs (path ++ [a]) st' cyc' =
                some (st2, cyc2) ∧
              (∀ k, (st2 k = 1 ↔ st' k = 1)) ∧ (∀ k, st2 k = 0 → st' k = 0) ∧
              (∀ k, st2 k ≤ 2) := by
          intro cs
          induction cs with
          | nil =>
            intro st' cyc' _ _ h2' _
            exact ⟨st', cyc', rfl, fun k => Iff.rfl, fun k h => h, h2'⟩
          | cons c cs ihc =>
            intro st' cyc' ha1 ha0 ha2 hfb
            by_cases hp : present net c = true
            · have hfuel2 : unvisitedCount net st' + 1 ≤ fuel := by
                have hb := hfb (by simp)
                have := unvisitedCount_mono net (stSet st a 1) st' ha0
                omega
              have hpath2 : ∀ k, st' k = 1 → k ∈ path ++ [a] := by
                intro k hk
                have hk2 := (ha1 k).mp hk
                by_cases hka : k = a
                · subst hka
                  simp
                · rw [stSet_other _ _ _ _ hka] at hk2
                  exact List.mem_append_left _ (h1 k hk2)
              obtain ⟨stB, cycB, hB, hB1, hB0, hB2⟩ :=
                ih c (path ++ [a]) st' cyc' hpath2 ha2 hfuel2
              obtain ⟨st2, cyc2, hC, hC1, hC0, hC2⟩ :=
                ihc stB cycB
                  (fun k => (hB1 k).trans (ha1 k))
                  (fun k h => ha0 k (hB0 k h))
                  hB2 (fun _ => hfb (by simp))
              refine ⟨st2, cyc2, ?_, fun k => (hC1 k).trans (hB1 k),
                fun k h => hB0 k (hC0 k h), hC2⟩
              simp only [dfsKids, hp, if_true]
              rw [hB]
              exact hC
            · obtain ⟨st2, cyc2, hC, hC1, hC0, hC2⟩ := ihc st' cyc' ha1 ha0 ha2
                (fun _ => hfb (by simp))
              refine ⟨st2, cyc2, ?_, hC1, hC0, hC2⟩
              simp only [dfsKids, hp, if_false, Bool.false_eq_true]
              exact hC
        have hstep : (downD net a) ≠ [] → unvisitedCount net (stSet st a 1) + 1 ≤ fuel := by
          intro hne
          have hpa : present net a = true := downD_ne_nil_present net a hne
          have ham : a ∈ net.map Prod.fst := (present_iff_mem net a).mp hpa
          have := unvisitedCount_stSet_lt net st a ham hs0
          omega
        obtain ⟨st2, cyc2, hK, hK1, hK0, hK2⟩ :=
          hkids (downD net a) (stSet st a 1) cyc (fun k => Iff.rfl) (fun k h => h)
            (by
              intro k
              by_cases hka : k = a
              · subst hka
                simp [stSet]
              · rw [stSet_other _ _ _ _ hka]
                exact h2 k)
            hstep
        refine ⟨stSet st2 a 2, cyc2, ?_, ?_, ?_, ?_⟩
        · simp only [dfsCycle, hs1, if_false, hs2, Bool.false_eq_true]
          rw [hK]
        · intro k
          by_cases hka : k = a
          · subst hka
            rw [stSet_self]
            constructor
            · intro h
              omega
            · intro h
              exact absurd h hs1
          · rw [stSet_other _ _ _ _ hka]
            have := (hK1 k).trans (show stSet st a 1 k = 1 ↔ st k = 1 by
              rw [stSet_other _ _ _ _ hka])
            exact this
        · intro k hk
          by_cases hka : k = a
          · subst hka
            rw [stSet_self] at hk
            omega
          · rw [stSet_other _ _ _ _ hka] at hk
            have := hK0 k hk
            rwa [stSet_other _ _ _ _ hka] at this
        · intro k
          by_cases hka : k = a
          · subst hka
            rw [stSet_self]
          · rw [stSet_other _ _ _ _ hka]
            exact hK2 k

theorem cycLoop_total (net : Network) : ∀ ks st cyc,
    (∀ k, st k ≠ 1) → (∀ k, st k ≤ 2) →
    ∃ st2 cyc2, cycLoop net ks st cyc = some (st2, cyc2) ∧
      (∀ k, st2 k ≠ 1) ∧ (∀ k, st2 k ≤ 2) := by
  intro ks
  induction ks with
  | nil =>
    intro st cyc hn1 hle
    exact ⟨st, cyc, rfl, hn1, hle⟩
  | cons k ks ih =>
    intro st cyc hn1 hle
    by_cases h0 : st k = 0
    · obtain ⟨stB, cycB, hB, hB1, hB0, hB2⟩ :=
        dfsCycle_total net (net.length + 1) k [] st cyc
          (fun k' hk' => absurd hk' (hn1 k'))
          hle
          (by have := unvisitedCount_le net st; omega)
      obtain ⟨st2, cyc2, hC, hC1, hC2⟩ :=
        ih stB cycB (fun k' hk' => hn1 k' ((hB1 k').mp hk')) hB2
      refine ⟨st2, cyc2, ?_, hC1, hC2⟩
      simp only [cycLoop, h0, if_true]
      rw [hB]
      exact hC
    · obtain ⟨st2, cyc2, hC, hC1, hC2⟩ := ih st cyc hn1 hle
      refine ⟨st2, cyc2, ?_, hC1, hC2⟩
      simp only [cycLoop, h0, if_false]
      exact hC

theorem findCyclicalAgents_total (net : Network) :
    ∃ cyc, findCyclicalAgents net = some cyc := by
  obtain ⟨st2, cyc2, hC, _, _⟩ :=
    cycLoop_total net (net.map Prod.fst) (fun _ => 0) []
      (fun _ => by simp) (fun _ => by simp)
  exact ⟨cyc2, by simp [findCyclicalAgents, hC]⟩

/-! ### Soundness of the cycle DFS: every collected agent lies on a cycle -/

theorem dfsCycle_sound (net : Network) : ∀ fuel a path st cyc st2 cyc2,
    isChainP net path →
    (path ≠ [] → isEdge net (path.getLastD "") a) →
    (∀ x ∈ cyc, OnCycle net x) →
    dfsCycle net fuel a path st cyc = some (st2, cyc2) →
    ∀ x ∈ cyc2, OnCycle net x := by
  intro fuel
  induction fuel with
  | zero =>
    intro a path st cyc st2 cyc2 _ _ _ heq
    simp [dfsCycle] at heq
  | succ fuel ih =>
    intro a path st cyc st2 cyc2 hch hlink hcyc heq
    by_cases hs1 : st a = 1
    · cases hi : pyIndex path a with
      | none => simp [dfsCycle, hs1, hi] at heq
      | some i =>
        simp only [dfsCycle, hs1, if_true, hi] at heq
        obtain ⟨t, ht⟩ := pyIndex_drop path a i hi
        have hpne : path ≠ [] := by
          intro he
          subst he
          simp at ht
        have he : isEdge net (path.getLastD "") a := hlink hpne
        have hchain : chainFrom net a t := by
          have := isChainP_drop net i path hch
          rw [ht] at this
          exact this
        have hlastd : t.getLastD a = path.getLastD "" := by
          have hne : path.drop i ≠ [] := by
            rw [ht]
            simp
          have := getLastD_drop path i "" hne
          rw [ht, List.getLastD_cons] at this
          exact this
        have he2 : isEdge net (t.getLastD a) a := by
          rw [hlastd]
          exact he
        have hw : chainFrom net a (t ++ [a]) := chainFrom_snoc net t a a hchain he2
        have hwl : (t ++ [a]).getLast? = some a := by simp
        have hall := onCycle_of_closedWalk net a (t ++ [a]) hw hwl
        injection heq with heq1
        injection heq1 with _ heq2
        subst heq2
        intro x hx
        rcases List.mem_append.mp hx with h1 | h1
        · exact hcyc x h1
        · rw [ht] at h1
          apply hall
          rcases List.mem_append.mp h1 with h2 | h2
          · rcases List.mem_cons.mp h2 with h3 | h3
            · simp [h3]
            · exact List.mem_cons_of_mem _ (List.mem_append_left _ h3)
          · simp at h2
            simp [h2]
    · by_cases hs2 : st a = 2
      · simp only [dfsCycle, hs1, if_false, hs2, if_true, Bool.false_eq_true] at heq
        injection heq with heq1
        injection heq1 with _ heq2
        subst heq2
        exact hcyc
      · have hch1 : isChainP net (path ++ [a]) := isChainP_snoc net path a hch hlink
        have hkids : ∀ cs stA cycA stB cycB,
            (∀ c ∈ cs, c ∈ downD net a) →
            (∀ x ∈ cycA, OnCycle net x) →
            dfsKids net (fun c p s y => dfsCycle net fuel c p s y) cs (path ++ [a]) stA cycA =
              some (stB, cycB) →
            ∀ x ∈ cycB, OnCycle net x := by
          intro cs
          induction cs with
          | nil =>
            intro stA cycA stB cycB _ hA heq2
            injection heq2 with heq3
            injection heq3 with _ heq4
            subst heq4
            exact hA
          | cons c cs ihc =>
            intro stA cycA stB cycB hsub hA heq2
            by_cases hp : present net c = true
            · simp only [dfsKids, hp, if_true] at heq2
              cases hB : dfsCycle net fuel c (path ++ [a]) stA cycA with
              | none => rw [hB] at heq2; simp at heq2
              | some q =>
                obtain ⟨stQ, cycQ⟩ := q
                rw [hB] at heq2
                have hQ : ∀ x ∈ cycQ, OnCycle net x := by
                  apply ih c (path ++ [a]) stA cycA stQ cycQ hch1 _ hA hB
                  intro _
                  rw [show (path ++ [a]).getLastD "" = a by simp]
                  have hpa : present net a = true := by
                    apply downD_ne_nil_present
                    exact List.ne_nil_of_mem (hsub c (by simp))
                  exact ⟨hpa, hp, hsub c (by simp)⟩
                exact ihc stQ cycQ stB cycB (fun d hd => hsub d (List.mem_cons_of_mem _ hd))
                  hQ heq2
            · simp only [dfsKids, hp, if_false, Bool.false_eq_true] at heq2
              exact ihc stA cycA stB cycB (fun d hd => hsub d (List.mem_cons_of_mem _ hd))
                hA heq2
        simp only [dfsCycle, hs1, if_false, hs2, Bool.false_eq_true] at heq
        cases hK : dfsKids net (fun c p s y => dfsCycle net fuel c p s y) (downD net a)
            (path ++ [a]) (stSet st a 1) cyc with
        | none => rw [hK] at heq; simp at heq
        | some q =>
          obtain ⟨stQ, cycQ⟩ := q
          rw [hK] at heq
          injection heq with heq1
          injection heq1 with _ heq2
          subst heq2
          exact hkids (downD net a) (stSet st a 1) cyc stQ cycQ (fun c hc => hc) hcyc hK

theorem cycLoop_sound (net : Network) : ∀ ks st cyc st2 cyc2,
    (∀ x ∈ cyc, OnCycle net x) →
    cycLoop net ks st cyc = some (st2, cyc2) →
    ∀ x ∈ cyc2, OnCycle net x := by
  intro ks
  induction ks with
  | nil =>
    intro st cyc st2 cyc2 hA heq
    injection heq with heq1
    injection heq1 with _ heq2
    subst heq2
    exact hA
  | cons k ks ih =>
    intro st cyc st2 cyc2 hA heq
    by_cases h0 : st k = 0
    · simp only [cycLoop, h0, if_true] at heq
      cases hB : dfsCycle net (net.length + 1) k [] st cyc with
      | none => rw [hB] at heq; simp at heq
      | some q =>
        obtain ⟨stQ, cycQ⟩ := q
        rw [hB] at heq
        have hQ := dfsCycle_sound net (net.length + 1) k [] st cyc stQ cycQ trivial
          (fun h => absurd rfl h) hA hB
        exact ih stQ cycQ st2 cyc2 hQ heq
    · simp only [cycLoop, h0, if_false] at heq
      exact ih st cyc st2 cyc2 hA heq

theorem findCyclicalAgents_sound (net : Network) (l : List String)
    (h : findCyclicalAgents net = some l) : ∀ x ∈ l, OnCycle net x := by
  unfold findCyclicalAgents at h
  cases hC : cycLoop net (net.map Prod.fst) (fun _ => 0) [] with
  | none => rw [hC] at h; simp at h
  | some q =>
    obtain ⟨stQ, cycQ⟩ := q
    rw [hC] at h
    simp at h
    subst h
    exact cycLoop_sound net (net.map Prod.fst) (fun _ => 0) [] stQ cycQ (by simp) hC

/-! ### The reachability DFS computes exactly the reachable present agents -/

theorem unvisCount_le (net : Network) (vis : List String) :
    unvisCount net vis ≤ net.length := by
  calc unvisCount net vis ≤ (net.map Prod.fst).length := List.length_filter_le _ _
    _ = net.length := List.length_map _ _

theorem unvisCount_mono (net : Network) (vis vis' : List String)
    (h : ∀ x ∈ vis, x ∈ vis') :
    unvisCount net vis' ≤ unvisCount net vis := by
  apply filter_length_mono
  intro x hx
  simp only [decide_eq_true_eq] at hx ⊢
  exact fun hm => hx (h x hm)

theorem unvisCount_cons_lt (net : Network) (vis : List String) (a : String)
    (ha : a ∈ net.map Prod.fst) (hnv : ¬ a ∈ vis) :
    unvisCount net (a :: vis) < unvisCount net vis := by
  apply filter_length_lt _ _ _ a ha
  · simp
  · simp [hnv]
  · intro x hx
    simp only [decide_eq_true_eq] at hx ⊢
    intro hm
    exact hx (List.mem_cons_of_mem _ hm)

theorem reaches_present_src (net : Network) (c x : String)
    (hx : present net x = true) (h : Reaches net c x) : present net c = true := by
  obtain ⟨l, hch, hl⟩ := h
  cases l with
  | nil =>
    simp only [List.getLastD] at hl
    rwa [hl]
  | cons v rest => exact hch.1.1

theorem dfsReach_spec (net : Network) : ∀ fuel a vis reach,
    unvisCount net vis + 1 ≤ fuel →
    ∃ vis2 reach2, dfsReach net fuel a vis reach = some (vis2, reach2) ∧
      (∀ x ∈ vis, x ∈ vis2) ∧
      (∀ x ∈ vis2, x ∈ vis ∨ (present net x = true ∧ Reaches net a x)) ∧
      ((∀ x, x ∈ vis ↔ x ∈ reach) → (∀ x, x ∈ vis2 ↔ x ∈ reach2)) ∧
      (∀ u ∈ vis2, ¬ u ∈ vis → ∀ c ∈ downD net u, present net c = true → c ∈ vis2) ∧
      (present net a = true → a ∈ vis2) := by
  intro fuel
  induction fuel with
  | zero =>
    intro a vis reach hc
    omega
  | succ fuel ih =>
    intro a vis reach hc
    by_cases hstop : a ∈ vis ∨ ¬ present net a = true
    · refine ⟨vis, reach, ?_, fun x h => h, fun x h => Or.inl h, fun h => h, ?_, ?_⟩
      · simp only [dfsReach]
        rw [if_pos hstop]
      · intro u hu hnu
        exact absurd hu hnu
      · intro hpa
        rcases hstop with h | h
        · exact h
        · exact absurd hpa h
    · push_neg at hstop
      obtain ⟨hnv, hpa0⟩ := hstop
      have hpa : present net a = true := by simpa using hpa0
      have hf1 : unvisCount net (a :: vis) + 1 ≤ fuel := by
        have := unvisCount_cons_lt net vis a ((present_iff_mem net a).mp hpa) hnv
        omega
      have hkids : ∀ cs visA reachA,
          (∀ c ∈ cs, c ∈ downD net a) →
          (∀ x ∈ a :: vis, x ∈ visA) →
          (∀ x ∈ visA, x ∈ a :: vis ∨ (present net x = true ∧ Reaches net a x)) →
          unvisCount net visA + 1 ≤ fuel →
          ∃ visB reachB,
            reachKids (fun c v r => dfsReach net fuel c v r) cs visA reachA =
              some (visB, reachB) ∧
            (∀ x ∈ visA, x ∈ visB) ∧
            (∀ x ∈ visB, x ∈ visA ∨ (present net x = true ∧ Reaches net a x)) ∧
            ((∀ x, x ∈ visA ↔ x ∈ reachA) → (∀ x, x ∈ visB ↔ x ∈ reachB)) ∧
            (∀ u ∈ visB, ¬ u ∈ visA →
              ∀ c ∈ downD net u, present net c = true → c ∈ visB) ∧
            (∀ c ∈ cs, present net c = true → c ∈ visB) := by
        intro cs
        induction cs with
        | nil =>
          intro visA reachA _ _ _ _
          exact ⟨visA, reachA, rfl, fun x h => h, fun x h => Or.inl h, fun h => h,
            fun u hu hnu => absurd hu hnu, fun c hc => absurd hc (by simp)⟩
        | cons c cs ihc =>
          intro visA reachA hsub hgrow hnew hkf
          obtain ⟨visB, reachB, hB, hB1, hB2, hB3, hB4, hB5⟩ :=
            ih c visA reachA hkf
          have hkf2 : unvisCount net visB + 1 ≤ fuel := by
            have := unvisCount_mono net visA visB hB1
            omega
          have hnewB : ∀ x ∈ visB, x ∈ a :: vis ∨ (present net x = true ∧ Reaches net a x) := by
            intro x hx
            rcases hB2 x hx with h1 | h1
            · exact hnew x h1
            · right
              refine ⟨h1.1, ?_⟩
              have hpc : present net c = true := reaches_present_src net c x h1.1 h1.2
              exact reaches_step net a c x ⟨hpa, hpc, hsub c (by simp)⟩ h1.2
          obtain ⟨visC, reachC, hC, hC1, hC2, hC3, hC4, hC5⟩ :=
            ihc visB reachB (fun d hd => hsub d (List.mem_cons_of_mem _ hd))
              (fun x hx => hB1 x (hgrow x hx)) hnewB hkf2
          refine ⟨visC, reachC, ?_, fun x hx => hC1 x (hB1 x hx), ?_, ?_, ?_, ?_⟩
          · simp only [reachKids]
            rw [hB]
            exact hC
          · intro x hx
            rcases hC2 x hx with h1 | h1
            · rcases hB2 x h1 with h2 | h2
              · exact Or.inl h2
              · right
                refine ⟨h2.1, ?_⟩
                have hpc : present net c = true := reaches_present_src net c x h2.1 h2.2
                exact reaches_step net a c x ⟨hpa, hpc, hsub c (by simp)⟩ h2.2
            · exact Or.inr h1
          · intro hiff
            exact hC3 (hB3 hiff)
          · intro u hu hnu
            by_cases hub : u ∈ visB
            · intro d hd hpd
              exact hC1 d (hB4 u hub hnu d hd hpd)
            · exact hC4 u hu hub
          · intro d hd hpd
            rcases List.mem_cons.mp hd with h1 | h1
            · subst h1
              exact hC1 d (hB5 hpd)
            · exact hC5 d h1 hpd
      have hkmain :=
        hkids (downD net a) (a :: vis) (a :: reach) (fun c hc => hc)
          (fun x h => h)
          (fun x hx => Or.inl hx)
          hf1
      obtain ⟨visB, reachB, hB, hB1, hB2, hB3, hB4, hB5⟩ := hkmain
      refine ⟨visB, reachB, ?_, ?_, ?_, ?_, ?_, ?_⟩
      · simp only [dfsReach]
        rw [if_neg (by simp [hnv, hpa])]
        exact hB
      · intro x hx
        exact hB1 x (List.mem_cons_of_mem _ hx)
      · intro x hx
        rcases hB2 x hx with h1 | h1
        · rcases List.mem_cons.mp h1 with h2 | h2
          · subst h2
            exact Or.inr ⟨hpa, reaches_self net x⟩
          · exact Or.inl h2
        · exact Or.inr h1
      · intro hiff
        apply hB3
        intro x
        constructor
        · intro hx
          rcases List.mem_cons.mp hx with h2 | h2
          · simp [h2]
          · exact List.mem_cons_of_mem _ ((hiff x).mp h2)
        · intro hx
          rcases List.mem_cons.mp hx with h2 | h2
          · simp [h2]
          · exact List.mem_cons_of_mem _ ((hiff x).mpr h2)
      · intro u hu hnu
        by_cases hua : u = a
        · subst hua
          intro d hd hpd
          exact hB5 d hd hpd
        · have hnu2 : ¬ u ∈ a :: vis := by
            intro hm
            rcases List.mem_cons.mp hm with h2 | h2
            · exact hua h2
            · exact hnu h2
          exact hB4 u hu hnu2
      · intro _
        exact hB1 a (by simp)

theorem visClosed_reach (net : Network) (vis2 : List String)
    (hclosed : ∀ u ∈ vis2, ∀ c ∈ downD net u, present net c = true → c ∈ vis2) :
    ∀ l r x, r ∈ vis2 → chainFrom net r l → l.getLastD r = x → x ∈ vis2 := by
  intro l
  induction l with
  | nil =>
    intro r x hr _ hl
    simp only [List.getLastD] at hl
    rwa [← hl]
  | cons c rest ihl =>
    intro r x hr hch hl
    obtain ⟨he, hch2⟩ := hch
    have hc : c ∈ vis2 := hclosed r hr c he.2.2 he.2.1
    rw [List.getLastD_cons] at hl
    exact ihl c x hc hch2 hl

theorem findUnreachableAgents_spec (net : Network) (top : String) :
    ∃ u, findUnreachableAgents net top = some u ∧
      (∀ x, x ∈ u ↔ (present net x = true ∧ ¬ Reaches net top x)) := by
  obtain ⟨vis2, reach2, hR, _, hB2, hB3, hB4, hB5⟩ :=
    dfsReach_spec net (net.length + 1) top [] []
      (by have := unvisCount_le net ([] : List String); omega)
  have hiff : ∀ x, x ∈ vis2 ↔ x ∈ reach2 := hB3 (by simp)
  have hmem : ∀ x, x ∈ vis2 ↔ (present net x = true ∧ Reaches net top x) := by
    intro x
    constructor
    · intro hx
      rcases hB2 x hx with h1 | h1
      · simp at h1
      · exact h1
    · intro ⟨hpx, hrx⟩
      have hptop : present net top = true := reaches_present_src net top x hpx hrx
      obtain ⟨l, hch, hl⟩ := hrx
      exact visClosed_reach net vis2 (fun u hu => hB4 u hu (by simp)) l top x
        (hB5 hptop) hch hl
  refine ⟨(net.map Prod.fst).filter (fun k => decide (¬ k ∈ reach2)), ?_, ?_⟩
  · simp only [findUnreachableAgents]
    rw [hR]
  · intro x
    rw [List.mem_filter]
    simp only [decide_eq_true_eq]
    constructor
    · intro ⟨hk, hnr⟩
      have hpx : present net x = true := (present_iff_mem net x).mpr hk
      refine ⟨hpx, fun hrx => hnr ((hiff x).mp ((hmem x).mpr ⟨hpx, hrx⟩))⟩
    · intro ⟨hpx, hnrx⟩
      refine ⟨(present_iff_mem net x).mp hpx, fun hr => ?_⟩
      exact hnrx ((hmem x).mp ((hiff x).mpr hr)).2

theorem findUnreachableAgents_total (net : Network) (top : String) :
    ∃ u, findUnreachableAgents net top = some u := by
  obtain ⟨u, hu, _⟩ := findUnreachableAgents_spec net top
  exact ⟨u, hu⟩

theorem findUnreachableAgents_sub (net : Network) (top : String) (u : List String)
    (h : findUnreachableAgents net top = some u) :
    ∀ x ∈ u, present net x = true := by
  obtain ⟨u2, hu2, hiff⟩ := findUnreachableAgents_spec net top
  rw [h] at hu2
  injection hu2 with he
  subst he
  exact fun x hx => ((hiff x).mp hx).1

/-! ### Shape of the structural validation result -/

theorem validate_decomp (net : Network) :
    ∃ cyc, findCyclicalAgents net = some cyc ∧
      ((∃ t u, findAllTopAgents net = [t] ∧ findUnreachableAgents net t = some u ∧
        validateNetworkStructure net = some (topErrs net ++ cycErrs cyc ++ unreachErrs u)) ∨
       ((findAllTopAgents net).length ≠ 1 ∧
        validateNetworkStructure net = some (topErrs net ++ cycErrs cyc))) := by
  obtain ⟨cyc, hcyc⟩ := findCyclicalAgents_total net
  refine ⟨cyc, hcyc, ?_⟩
  cases htop : findAllTopAgents net with
  | nil =>
    right
    refine ⟨by simp [htop], ?_⟩
    simp only [validateNetworkStructure, hcyc, htop]
  | cons t rest =>
    cases rest with
    | nil =>
      left
      obtain ⟨u, hu⟩ := findUnreachableAgents_total net t
      refine ⟨t, u, rfl, hu, ?_⟩
      simp only [validateNetworkStructure, hcyc, htop, hu]
    | cons t2 r2 =>
      right
      refine ⟨by simp [htop], ?_⟩
      simp only [validateNetworkStructure, hcyc, htop]

theorem validate_total (net : Network) :
    ∃ errs, validateNetworkStructure net = some errs := by
  obtain ⟨cyc, _, hd⟩ := validate_decomp net
  rcases hd with ⟨t, u, _, _, h⟩ | ⟨_, h⟩
  · exact ⟨_, h⟩
  · exact ⟨_, h⟩

theorem topErrs_nil_iff (net : Network) :
    topErrs net = [] ↔ (findAllTopAgents net).length = 1 := by
  unfold topErrs
  by_cases h0 : (findAllTopAgents net).length = 0
  · simp [h0]
  · by_cases h1 : (findAllTopAgents net).length > 1
    · simp [h0, h1]
      omega
    · simp [h0, h1]
      omega

theorem downTruthy_iff (ag : Agent) : downTruthy ag = true ↔ agentDown ag ≠ [] := by
  unfold downTruthy
  simp [List.isEmpty_iff]

theorem instrTruthy_isSome (ag : Agent) (h : instrTruthy ag = true) :
    ag.instructions.isSome = true := by
  unfold instrTruthy at h
  cases hi : ag.instructions with
  | none => rw [hi] at h; simp at h
  | some s => simp

theorem mem_hasDownChains (net : Network) (x : String) :
    x ∈ hasDownChains net ↔ ∃ p, p ∈ net ∧ p.1 = x ∧ downTruthy p.2 = true := by
  unfold hasDownChains
  simp only [List.mem_map, List.mem_filter]
  constructor
  · rintro ⟨p, ⟨hp, hd⟩, hx⟩
    exact ⟨p, hp, hx, hd⟩
  · rintro ⟨p, hp, hx, hd⟩
    exact ⟨p, ⟨hp, hd⟩, hx⟩

theorem mem_asDownChains (net : Network) (x : String) :
    x ∈ asDownChains net ↔ ∃ p, p ∈ net ∧ x ∈ agentDown p.2 := by
  induction net with
  | nil => simp [asDownChains]
  | cons p rest ih =>
    simp only [asDownChains, List.mem_append]
    constructor
    · intro h
      rcases h with h | h
      · by_cases hd : downTruthy p.2 = true
        · rw [if_pos hd] at h
          exact ⟨p, by simp, h⟩
        · rw [if_neg hd] at h
          simp at h
      · obtain ⟨q, hq, hx⟩ := ih.mp h
        exact ⟨q, List.mem_cons_of_mem _ hq, hx⟩
    · rintro ⟨q, hq, hx⟩
      rcases List.mem_cons.mp hq with h1 | h1
      · subst h1
        left
        have hd : downTruthy q.2 = true :=
          (downTruthy_iff q.2).mpr (List.ne_nil_of_mem hx)
        rw [if_pos hd]
        exact hx
      · right
        exact ih.mpr ⟨q, h1, hx⟩

theorem mem_findAllTopAgents (net : Network) (x : String) :
    x ∈ findAllTopAgents net ↔
      x ∈ hasDownChains net ∧ ¬ x ∈ asDownChains net := by
  unfold findAllTopAgents
  rw [List.mem_filter]
  simp

theorem findAllTopAgents_char (net : Network) (hnd : (net.map Prod.fst).Nodup) (x : String) :
    x ∈ findAllTopAgents net ↔ (hasNonemptyDown net x ∧ ¬ namedInDown net x) := by
  rw [mem_findAllTopAgents]
  constructor
  · rintro ⟨h1, h2⟩
    obtain ⟨p, hp, hx, hd⟩ := (mem_hasDownChains net x).mp h1
    refine ⟨⟨p.2, ?_, (downTruthy_iff p.2).mp hd⟩, ?_⟩
    · rw [← hx]
      exact lookupA_of_mem net p.1 p.2 hnd (by simpa using hp)
    · intro ⟨q, hq, hxq⟩
      exact h2 ((mem_asDownChains net x).mpr ⟨q, hq, hxq⟩)
  · rintro ⟨⟨ag, hag, hne⟩, h2⟩
    refine ⟨(mem_hasDownChains net x).mpr ⟨(x, ag), lookupA_mem net x ag hag, rfl,
      (downTruthy_iff ag).mpr hne⟩, ?_⟩
    intro hmem
    obtain ⟨q, hq, hxq⟩ := (mem_asDownChains net x).mp hmem
    exact h2 ⟨q, hq, hxq⟩

theorem findAllTopAgents_sub_keys (net : Network) (x : String)
    (h : x ∈ findAllTopAgents net) : x ∈ net.map Prod.fst := by
  obtain ⟨h1, _⟩ := (mem_findAllTopAgents net x).mp h
  obtain ⟨p, hp, hx, _⟩ := (mem_hasDownChains net x).mp h1
  exact List.mem_map.mpr ⟨p, hp, hx⟩

theorem findAllTopAgents_nodup (net : Network) (hnd : (net.map Prod.fst).Nodup) :
    (findAllTopAgents net).Nodup := by
  have h1 : (net.filter (fun p => downTruthy p.2)).Sublist net := List.filter_sublist _
  have h2 : (hasDownChains net).Sublist (net.map Prod.fst) := h1.map Prod.fst
  exact (h2.nodup hnd).filter _

/-! ### Counting defect messages -/

theorem count_noTop_topErrs (net : Network) :
    (topErrs net).count noTopMsg = if (findAllTopAgents net).length = 0 then 1 else 0 := by
  unfold topErrs
  by_cases h0 : (findAllTopAgents net).length = 0
  · simp [h0]
  · by_cases h1 : (findAllTopAgents net).length > 1
    · simp [h0, h1, List.count_singleton', noTopMsg_ne_multi]
    · simp [h0, h1]

theorem count_multi_topErrs (net : Network) :
    (topErrs net).count (multiTopMsg (findAllTopAgents net)) =
      if 1 < (findAllTopAgents net).length then 1 else 0 := by
  unfold topErrs
  by_cases h0 : (findAllTopAgents net).length = 0
  · have : ¬ 1 < (findAllTopAgents net).length := by omega
    simp [h0, this, List.count_singleton']
    exact fun he => noTopMsg_ne_multi _ he
  · by_cases h1 : (findAllTopAgents net).length > 1
    · simp [h0, h1, List.count_singleton']
    · simp [h0, h1]

theorem count_cycMsg_topErrs (net : Network) (c : List String) :
    (topErrs net).count (cycMsg c) = 0 := by
  unfold topErrs
  by_cases h0 : (findAllTopAgents net).length = 0
  · simp [h0, List.count_singleton']
    exact fun he => noTopMsg_ne_cyc _ he
  · by_cases h1 : (findAllTopAgents net).length > 1
    · simp [h0, h1, List.count_singleton']
      exact fun he => multiTopMsg_ne_cyc _ _ he
    · simp [h0, h1]

theorem count_unreachMsg_topErrs (net : Network) (c : List String) :
    (topErrs net).count (unreachMsg c) = 0 := by
  unfold topErrs
  by_cases h0 : (findAllTopAgents net).length = 0
  · simp [h0, List.count_singleton']
    exact fun he => noTopMsg_ne_unreach _ he
  · by_cases h1 : (findAllTopAgents net).length > 1
    · simp [h0, h1, List.count_singleton']
      exact fun he => multiTopMsg_ne_unreach _ _ he
    · simp [h0, h1]

theorem count_cycMsg_cycErrs (c : List String) :
    (cycErrs c).count (cycMsg c) = if c.isEmpty then 0 else 1 := by
  unfold cycErrs
  by_cases h : c.isEmpty
  · simp [h]
  · simp [h, List.count_singleton']

theorem count_noTop_cycErrs (c : List String) :
    (cycErrs c).count noTopMsg = 0 := by
  unfold cycErrs
  by_cases h : c.isEmpty
  · simp [h]
  · simp [h, List.count_singleton']
    exact fun he => noTopMsg_ne_cyc _ he.symm

theorem count_multi_cycErrs (c d : List String) :
    (cycErrs c).count (multiTopMsg d) = 0 := by
  unfold cycErrs
  by_cases h : c.isEmpty
  · simp [h]
  · simp [h, List.count_singleton']
    exact fun he => multiTopMsg_ne_cyc _ _ he.symm

theorem count_unreach_cycErrs (c d : List String) :
    (cycErrs c).count (unreachMsg d) = 0 := by
  unfold cycErrs
  by_cases h : c.isEmpty
  · simp [h]
  · simp [h, List.count_singleton']
    exact fun he => cycMsg_ne_unreach _ _ he

theorem count_unreach_unreachErrs (u : List String) :
    (unreachErrs u).count (unreachMsg u) = if u.isEmpty then 0 else 1 := by
  unfold unreachErrs
  by_cases h : u.isEmpty
  · simp [h]
  · simp [h, List.count_singleton']

theorem count_noTop_unreachErrs (u : List String) :
    (unreachErrs u).count noTopMsg = 0 := by
  unfold unreachErrs
  by_cases h : u.isEmpty
  · simp [h]
  · simp [h, List.count_singleton']
    exact fun he => noTopMsg_ne_unreach _ he.symm

theorem count_multi_unreachErrs (u d : List String) :
    (unreachErrs u).count (multiTopMsg d) = 0 := by
  unfold unreachErrs
  by_cases h : u.isEmpty
  · simp [h]
  · simp [h, List.count_singleton']
    exact fun he => multiTopMsg_ne_unreach _ _ he.symm

theorem count_cyc_unreachErrs (u d : List String) :
    (unreachErrs u).count (cycMsg d) = 0 := by
  unfold unreachErrs
  by_cases h : u.isEmpty
  · simp [h]
  · simp [h, List.count_singleton']
    exact fun he => cycMsg_ne_unreach _ _ he.symm

theorem mem_unreachErrs_not (u : List String) (m : String)
    (h : ∀ d : List String, m ≠ unreachMsg d) : ¬ m ∈ unreachErrs u := by
  unfold unreachErrs
  by_cases hu : u.isEmpty
  · simp [hu]
  · simp [hu]
    exact h u

/-! ### Rendering lemmas -/

theorem keywords_nil_iff (net : Network) (k : String) :
    validateNetworkKeywords net k = [] ↔ ∀ p ∈ net, agentGetTruthy p.2 k = true := by
  unfold validateNetworkKeywords
  rw [List.filterMap_eq_nil_iff]
  constructor
  · intro h p hp
    have := h p hp
    by_cases ht : agentGetTruthy p.2 k = true
    · exact ht
    · rw [if_neg ht] at this
      simp at this
  · intro h p hp
    rw [if_pos (h p hp)]

theorem agentGetTruthy_instructions (ag : Agent) :
    agentGetTruthy ag "instructions" = instrTruthy ag := by
  unfold agentGetTruthy
  rw [if_pos rfl]

theorem renderBlock_of_instr (top n : String) (ag : Agent) (i : String)
    (h : ag.instructions = some i) :
    renderBlock top n ag = some (blockStr top n ag i) := by
  unfold renderBlock blockStr
  rw [h]

theorem renderAgents_eq (top : String) : ∀ l : Network,
    (∀ p ∈ l, p.2.instructions.isSome = true) →
    renderAgents top l =
      some (strConcat (l.map (fun p => blockStr top p.1 p.2 (instrD p.2)))) := by
  intro l
  induction l with
  | nil =>
    intro _
    rfl
  | cons p rest ih =>
    intro h
    obtain ⟨n, ag⟩ := p
    have hs : ag.instructions.isSome = true := h (n, ag) (by simp)
    cases hi : ag.instructions with
    | none => rw [hi] at hs; simp at hs
    | some i =>
      have hb := renderBlock_of_instr top n ag i hi
      have hrest := ih (fun q hq => h q (List.mem_cons_of_mem _ hq))
      simp only [renderAgents, hb, hrest, Option.map_some]
      have : instrD ag = i := by
        unfold instrD
        rw [hi]
        rfl
      simp [strConcat, this]

theorem eraseKey_sub (net : Network) (k : String) (p : String × Agent)
    (h : p ∈ eraseKeyNet net k) : p ∈ net :=
  List.mem_of_mem_filter h

theorem eraseKey_map_fst (net : Network) (k : String) :
    (eraseKeyNet net k).map Prod.fst =
      (net.map Prod.fst).filter (fun x => decide (¬ x = k)) := by
  induction net with
  | nil => rfl
  | cons p rest ih =>
    by_cases hp : p.1 = k
    · simp [eraseKeyNet, List.filter_cons, hp] at ih ⊢
      exact ih
    · simp [eraseKeyNet, List.filter_cons, hp] at ih ⊢
      exact ih

theorem eraseKey_length_lt (net : Network) (k : String)
    (h : k ∈ net.map Prod.fst) : (eraseKeyNet net k).length < net.length := by
  induction net with
  | nil => simp at h
  | cons p rest ih =>
    simp only [eraseKeyNet, List.filter_cons] at ih ⊢
    by_cases hp : p.1 = k
    · rw [if_neg (by simp [hp])]
      have hle : (rest.filter (fun q => decide (¬ q.1 = k))).length ≤ rest.length :=
        List.length_filter_le _ _
      simp only [List.length_cons]
      omega
    · rw [if_pos (by simp [hp])]
      simp only [List.map_cons, List.mem_cons] at h
      rcases h with h1 | h1
      · exact absurd h1.symm hp
      · have := ih h1
        simp only [List.length_cons]
        omega

theorem eraseKey_keys_of_nodup (net : Network) (k : String) :
    ∀ p ∈ eraseKeyNet net k, p.1 ≠ k := by
  intro p hp
  have := List.mem_filter.mp hp
  simpa using this.2

theorem toolsGo_join : ∀ (l : List String) (j : Nat),
    toolsGo l (j + l.length) j = joinSep "," (l.map quoteName) := by
  intro l
  induction l with
  | nil =>
    intro j
    rfl
  | cons d rest ih =>
    intro j
    cases hr : rest with
    | nil =>
      subst hr
      show "\"" ++ d ++ "\"" ++ (if j < j + [d].length - 1 then "," else "") ++
        toolsGo [] (j + [d].length) (j + 1) = joinSep "," ([d].map quoteName)
      rw [if_neg (by simp)]
      simp [toolsGo, joinSep, quoteName]
    | cons e rest2 =>
      subst hr
      have hlen : j < j + (d :: e :: rest2).length - 1 := by
        simp
      have hstep : toolsGo (d :: e :: rest2) (j + (d :: e :: rest2).length) j =
          "\"" ++ d ++ "\"" ++ (if j < j + (d :: e :: rest2).length - 1 then "," else "") ++
          toolsGo (e :: rest2) (j + (d :: e :: rest2).length) (j + 1) := rfl
      rw [hstep, if_pos hlen]
      have harg : j + 1 + (e :: rest2).length = j + (d :: e :: rest2).length := by
        simp
        omega
      have htail := ih (j + 1)
      rw [harg] at htail
      rw [htail]
      simp [joinSep, quoteName, String.append_assoc]

theorem toolsFor_join (ag : Agent) (h : agentDown ag ≠ []) :
    toolsFor ag = joinSep "," ((agentDown ag).map quoteName) := by
  unfold toolsFor
  rw [if_pos ((downTruthy_iff ag).mpr h)]
  have := toolsGo_join (agentDown ag) 0
  simpa using this

/-! ### Strings as character lists -/

theorem str_data_append (s t : String) : (s ++ t).data = s.data ++ t.data := rfl

theorem manifestEntry_data (n : String) :
    (manifestEntry n).data = "    ".data ++ (quotedHocon n).data ++ ": true,".data := by
  unfold manifestEntry quotedHocon
  simp only [str_data_append, List.append_assoc]
  rfl

theorem rfindBrace_none_iff (l : List Char) :
    rfindBrace l = none ↔ ¬ '\x7d' ∈ l := by
  induction l with
  | nil => simp [rfindBrace]
  | cons c rest ih =>
    simp only [rfindBrace]
    cases hr : rfindBrace rest with
    | some q =>
      obtain ⟨b, a⟩ := q
      constructor
      · intro h
        simp at h
      · intro h
        have hnone : rfindBrace rest = none :=
          ih.mpr (fun hm => h (List.mem_cons_of_mem _ hm))
        rw [hr] at hnone
        exact absurd hnone (by simp)
    | none =>
      have hrest : ¬ '\x7d' ∈ rest := ih.mp hr
      by_cases hc : c = '\x7d'
      · subst hc
        simp
      · rw [if_neg hc]
        constructor
        · intro _ hm
          rcases List.mem_cons.mp hm with h1 | h1
          · exact hc h1.symm
          · exact hrest h1
        · intro _
          rfl

theorem slySet_lookup_ne (sly : SlyData) (k k2 : String) (v : SlyVal)
    (h : k2 ≠ k) : slyLookup (slySet sly k v) k2 = slyLookup sly k2 := by
  induction sly with
  | nil => simp [slySet, slyLookup, Ne.symm h]
  | cons p rest ih =>
    obtain ⟨kk, vv⟩ := p
    by_cases hk : kk = k
    · subst hk
      simp only [slySet, if_pos rfl]
      simp [slyLookup, Ne.symm h]
    · simp only [slySet, if_neg hk]
      simp only [slyLookup]
      by_cases hk2 : kk = k2
      · simp [hk2]
      · simp [hk2, ih]

/-! ### The manifest update -/

theorem updateManifest_nobrace (m n : String) (h : rfindBrace m.data = none) :
    updateManifest m n = m := by
  simp only [updateManifest, h]

theorem updateManifest_already (m n : String) (h : pyIn (quotedHocon n) m) :
    updateManifest m n = m := by
  unfold updateManifest
  cases hr : rfindBrace m.data with
  | none => rfl
  | some q =>
    obtain ⟨b, a⟩ := q
    simp only []
    rw [if_pos h]

theorem updateManifest_inserted (m n : String) (b a : List Char)
    (hr : rfindBrace m.data = some (b, a)) (hnot : ¬ pyIn (quotedHocon n) m) :
    updateManifest m n = String.mk (b ++ ('\n' :: (manifestEntry n).data) ++ ('\x7d' :: a)) := by
  simp only [updateManifest, hr]
  rw [if_neg hnot]

theorem quoted_in_inserted (n : String) (b a : List Char) :
    pyIn (quotedHocon n) (String.mk (b ++ ('\n' :: (manifestEntry n).data) ++ ('\x7d' :: a))) := by
  unfold pyIn
  refine ⟨b ++ '\n' :: "    ".data, ": true,".data ++ '\x7d' :: a, ?_⟩
  show (b ++ '\n' :: "    ".data) ++ (quotedHocon n).data ++ (": true,".data ++ '\x7d' :: a) =
    (b ++ ('\n' :: (manifestEntry n).data) ++ ('\x7d' :: a))
  rw [manifestEntry_data]
  simp [List.append_assoc]

theorem updateManifest_idem (m n : String) :
    updateManifest (updateManifest m n) n = updateManifest m n := by
  cases hr : rfindBrace m.data with
  | none =>
    have h1 := updateManifest_nobrace m n hr
    rw [h1]
    exact h1
  | some q =>
    obtain ⟨b, a⟩ := q
    by_cases hin : pyIn (quotedHocon n) m
    · have h1 := updateManifest_already m n hin
      rw [h1]
      exact h1
    · have h1 := updateManifest_inserted m n b a hr hin
      rw [h1]
      exact updateManifest_already _ n (quoted_in_inserted n b a)

/-! ### Assembling the rendered document -/

theorem getTopAgent_eq (net : Network) (t : String)
    (ht : findAllTopAgents net = [t]) : getTopAgent net = some t := by
  simp [getTopAgent, ht]

theorem validated_top (net : Network)
    (hv : validateNetworkStructure net = some []) :
    ∃ t, findAllTopAgents net = [t] := by
  obtain ⟨cyc, hcyc, hd⟩ := validate_decomp net
  rcases hd with ⟨t, u, ht, hu, h⟩ | ⟨hlen, h⟩
  · exact ⟨t, ht⟩
  · rw [hv] at h
    injection h with he
    have htop : topErrs net = [] := by
      cases htv : topErrs net with
      | nil => rfl
      | cons x xs =>
        rw [htv] at he
        simp at he
    exact absurd ((topErrs_nil_iff net).mp htop) hlen

theorem keywords_instr_isSome (net : Network)
    (hk : validateNetworkKeywords net "instructions" = []) :
    ∀ p ∈ net, p.2.instructions.isSome = true := by
  intro p hp
  have := (keywords_nil_iff net "instructions").mp hk p hp
  rw [agentGetTruthy_instructions] at this
  exact instrTruthy_isSome p.2 this

theorem getHocon_eq (net : Network) (name t : String)
    (hnd : (net.map Prod.fst).Nodup)
    (ht : findAllTopAgents net = [t])
    (hins : ∀ p ∈ net, p.2.instructions.isSome = true) :
    ∃ ordered : Network,
      getAgentNetworkHocon net name = some
        (HOCON_HEADER_START ++ name ++ HOCON_HEADER_REMAINDER ++
          strConcat (ordered.map (fun p => blockStr t p.1 p.2 (instrD p.2))) ++ "]\n\x7d\n",
         if (net.map Prod.fst).head? = some t then net else eraseKeyNet net t) ∧
      ordered.map Prod.fst = t :: (net.map Prod.fst).filter (fun x => decide (¬ x = t)) ∧
      (∀ p ∈ ordered, p ∈ net) := by
  have htk : t ∈ net.map Prod.fst :=
    findAllTopAgents_sub_keys net t (by rw [ht]; simp)
  cases hnet : net with
  | nil =>
    rw [hnet] at htk
    simp at htk
  | cons p0 rest =>
    obtain ⟨k0, ag0⟩ := p0
    subst hnet
    by_cases htop0 : t = k0
    · subst htop0
      simp only [List.map_cons, List.nodup_cons] at hnd
      have hord : ((t, ag0) :: rest).map Prod.fst =
          t :: (((t, ag0) :: rest).map Prod.fst).filter (fun x => decide (¬ x = t)) := by
        simp only [List.map_cons, List.filter_cons]
        rw [if_neg (by simp)]
        congr 1
        symm
        rw [List.filter_eq_self]
        intro x hx
        simp only [decide_eq_true_eq]
        intro hxt
        subst hxt
        exact hnd.1 hx
      refine ⟨(t, ag0) :: rest, ?_, hord, fun p hp => hp⟩
      have hrend := renderAgents_eq t ((t, ag0) :: rest) hins
      have hga : getTopAgent ((t, ag0) :: rest) = some t := getTopAgent_eq _ t ht
      unfold getAgentNetworkHocon
      rw [hga]
      simp only [if_true]
      rw [hrend]
      simp only []
      rw [if_pos (by simp)]
    · have hsome : (lookupA ((k0, ag0) :: rest) t).isSome = true :=
        (lookupA_isSome_iff _ t).mpr htk
      cases hlk : lookupA ((k0, ag0) :: rest) t with
      | none => rw [hlk] at hsome; simp at hsome
      | some cfg =>
        have hmem : (t, cfg) ∈ (k0, ag0) :: rest := lookupA_mem _ t cfg hlk
        have hsubN : ∀ p ∈ (t, cfg) :: eraseKeyNet ((k0, ag0) :: rest) t,
            p ∈ (k0, ag0) :: rest := by
          intro p hp
          rcases List.mem_cons.mp hp with h1 | h1
          · rw [h1]
            exact hmem
          · exact eraseKey_sub _ t p h1
        refine ⟨(t, cfg) :: eraseKeyNet ((k0, ag0) :: rest) t, ?_, ?_, hsubN⟩
        · have hrend := renderAgents_eq t ((t, cfg) :: eraseKeyNet ((k0, ag0) :: rest) t)
            (fun p hp => hins p (hsubN p hp))
          have hga : getTopAgent ((k0, ag0) :: rest) = some t := getTopAgent_eq _ t ht
          unfold getAgentNetworkHocon
          rw [hga]
          simp only []
          rw [if_neg htop0]
          rw [hlk]
          simp only []
          rw [hrend]
          simp only []
          rw [if_neg (by simp; intro he; exact htop0 he.symm)]
        · simp only [List.map_cons]
          rw [eraseKey_map_fst]
          simp only [List.map_cons]

theorem mem_iff_count_ne (l : List String) (a : String) : a ∈ l ↔ l.count a ≠ 0 := by
  rw [Ne, List.count_eq_zero, not_not]

/-- Claim C7: modelling the manifest as a string, the manifest update of
modify_registry is idempotent: the entry `"<name>.hocon": true` is inserted before the
final closing brace only when the quoted filename `"<name>.hocon"` does not
already occur as a substring, so applying the update twice with the same name
yields the same content as applying it once. -/
theorem claim_C7 :
    (∀ m n, updateManifest (updateManifest m n) n = updateManifest m n) ∧
    (∀ m n, pyIn (quotedHocon n) m → updateManifest m n = m) ∧
    (∀ m n b a, rfindBrace m.data = some (b, a) → ¬ pyIn (quotedHocon n) m →
      updateManifest m n =
        String.mk (b ++ ('\n' :: (manifestEntry n).data) ++ ('\x7d' :: a))) :=
  ⟨updateManifest_idem, fun m n h => updateManifest_already m n h,
   fun m n b a hr hn => updateManifest_inserted m n b a hr hn⟩

/-- Witness for C7 at a concrete manifest. -/
theorem claim_C7_witness :
    updateManifest (updateManifest "\x7b\n\x7d\n" "net1") "net1" =
      updateManifest "\x7b\n\x7d\n" "net1" ∧
    pyIn (quotedHocon "x") "\x7b\n    \"x.hocon\": true,\n\x7d\n" ∧
    updateManifest "\x7b\n    \"x.hocon\": true,\n\x7d\n" "x" =
      "\x7b\n    \"x.hocon\": true,\n\x7d\n" :=
  ⟨claim_C7.1 "\x7b\n\x7d\n" "net1", by decide,
   claim_C7.2.1 "\x7b\n    \"x.hocon\": true,\n\x7d\n" "x" (by decide)⟩

/-- Claim C2: root detection computes the candidate set as (agents with a
non-empty down_chains list) minus (agents named in the down_chains of any
agent);
validate_network_structure emits the no-top-agent defect exactly when this
set is empty and, exactly when it has two or more elements, a single defect
listing all candidates sorted. -/
theorem claim_C2 (net : Network) (hnd : (net.map Prod.fst).Nodup) :
    ∃ errs, validateNetworkStructure net = some errs ∧
      (∀ x, x ∈ findAllTopAgents net ↔ (hasNonemptyDown net x ∧ ¬ namedInDown net x)) ∧
      (noTopMsg ∈ errs ↔ findAllTopAgents net = []) ∧
      (multiTopMsg (findAllTopAgents net) ∈ errs ↔ 2 ≤ (findAllTopAgents net).length) ∧
      errs.count noTopMsg = (if (findAllTopAgents net).length = 0 then 1 else 0) ∧
      errs.count (multiTopMsg (findAllTopAgents net)) =
        (if 2 ≤ (findAllTopAgents net).length then 1 else 0) ∧
      (∀ x, x ∈ pySortedSet (findAllTopAgents net) ↔ x ∈ findAllTopAgents net) ∧
      List.Sorted pyLeP (pySortedSet (findAllTopAgents net)) := by
  obtain ⟨cyc, hcyc, hd⟩ := validate_decomp net
  have hchar := findAllTopAgents_char net hnd
  have hmain : ∀ tail : List String,
      tail.count noTopMsg = 0 →
      tail.count (multiTopMsg (findAllTopAgents net)) = 0 →
      ((topErrs net ++ cycErrs cyc ++ tail).count noTopMsg =
        (if (findAllTopAgents net).length = 0 then 1 else 0)) ∧
      ((topErrs net ++ cycErrs cyc ++ tail).count (multiTopMsg (findAllTopAgents net)) =
        (if 2 ≤ (findAllTopAgents net).length then 1 else 0)) := by
    intro tail h1 h2
    constructor
    · rw [List.count_append, List.count_append, count_noTop_topErrs, count_noTop_cycErrs, h1]
      omega
    · rw [List.count_append, List.count_append, count_multi_topErrs, count_multi_cycErrs, h2]
      by_cases hL : 1 < (findAllTopAgents net).length
      · rw [if_pos hL, if_pos (by omega)]
      · rw [if_neg hL, if_neg (by omega)]
  have hfinish : ∀ errs : List String,
      (errs.count noTopMsg = (if (findAllTopAgents net).length = 0 then 1 else 0)) →
      (errs.count (multiTopMsg (findAllTopAgents net)) =
        (if 2 ≤ (findAllTopAgents net).length then 1 else 0)) →
      ((noTopMsg ∈ errs ↔ findAllTopAgents net = []) ∧
       (multiTopMsg (findAllTopAgents net) ∈ errs ↔ 2 ≤ (findAllTopAgents net).length)) := by
    intro errs hc1 hc2
    constructor
    · rw [mem_iff_count_ne, hc1]
      by_cases h0 : (findAllTopAgents net).length = 0
      · have e0 : findAllTopAgents net = [] := List.length_eq_zero.mp h0
        simp [h0, e0]
      · simp only [if_neg h0]
        constructor
        · intro h
          exact absurd rfl h
        · intro he
          rw [he] at h0
          exact absurd rfl h0
    · rw [mem_iff_count_ne, hc2]
      by_cases h2 : 2 ≤ (findAllTopAgents net).length
      · simp [h2]
      · simp [h2]
  rcases hd with ⟨t, u, ht, hu, h⟩ | ⟨hlen, h⟩
  · obtain ⟨hc1, hc2⟩ := hmain (unreachErrs u) (count_noTop_unreachErrs u)
      (count_multi_unreachErrs u _)
    obtain ⟨hm1, hm2⟩ := hfinish _ hc1 hc2
    exact ⟨_, h, hchar, hm1, hm2, hc1, hc2, fun x => mem_pySortedSet _ x,
      sorted_pySortedSet _⟩
  · have heq : topErrs net ++ cycErrs cyc = topErrs net ++ cycErrs cyc ++ ([] : List String) := by
      simp
    obtain ⟨hc1, hc2⟩ := hmain ([] : List String) rfl rfl
    rw [← heq] at hc1 hc2
    obtain ⟨hm1, hm2⟩ := hfinish _ hc1 hc2
    exact ⟨_, h, hchar, hm1, hm2, hc1, hc2, fun x => mem_pySortedSet _ x,
      sorted_pySortedSet _⟩

/-- Witness for C2 at the two-disjoint-roots network: both roots reported,
sorted. -/
theorem claim_C2_witness :
    (exTwoRootsNet.map Prod.fst).Nodup ∧
    (∃ errs, validateNetworkStructure exTwoRootsNet = some errs ∧
      multiTopMsg (findAllTopAgents exTwoRootsNet) ∈ errs) := by
  have hnd : (exTwoRootsNet.map Prod.fst).Nodup := by decide
  obtain ⟨errs, he, _, _, hm2, _⟩ := claim_C2 exTwoRootsNet hnd
  exact ⟨hnd, errs, he, hm2.mpr (by decide)⟩

theorem isEdge_of (net : Network) (u v : String) (h1 : present net u = true)
    (h2 : present net v = true) (h3 : v ∈ downD net u) : isEdge net u v :=
  ⟨h1, h2, h3⟩

/-- Claim C1 (amended): every agent `_find_cyclical_agents` collects lies on
some directed cycle of down_chains edges between agents present in the
mapping (it may omit some agents that lie on cycles);
validate_network_structure reports the collected set sorted in a single
defect; for the 3-cycle `A → B → C → A` with no other edges the collected
set is exactly `{A, B, C}`. -/
theorem claim_C1 :
    (∀ (net : Network) (l : List String), findCyclicalAgents net = some l →
      ∀ x ∈ l, OnCycle net x) ∧
    (∀ (net : Network) (cyc errs : List String),
      findCyclicalAgents net = some cyc → validateNetworkStructure net = some errs →
      errs.count (cycMsg cyc) = (if cyc.isEmpty then 0 else 1)) ∧
    (∀ cyc : List String, (∀ x, x ∈ pySortedSet cyc ↔ x ∈ cyc) ∧
      List.Sorted pyLeP (pySortedSet cyc)) ∧
    (findCyclicalAgents exCycleNet = some ["A", "B", "C", "A"] ∧
      pySortedSet ["A", "B", "C", "A"] = ["A", "B", "C"]) := by
  refine ⟨findCyclicalAgents_sound, ?_,
    fun cyc => ⟨fun x => mem_pySortedSet _ x, sorted_pySortedSet _⟩, rfl, by decide⟩
  intro net cyc errs hc hv
  obtain ⟨cyc2, hcyc2, hd⟩ := validate_decomp net
  rw [hc] at hcyc2
  injection hcyc2 with he
  subst he
  rcases hd with ⟨t, u, ht, hu, h⟩ | ⟨hlen, h⟩
  · rw [hv] at h
    injection h with he2
    rw [he2]
    rw [List.count_append, List.count_append, count_cycMsg_topErrs,
      count_cycMsg_cycErrs, count_cyc_unreachErrs]
    omega
  · rw [hv] at h
    injection h with he2
    rw [he2]
    rw [List.count_append, count_cycMsg_topErrs, count_cycMsg_cycErrs]
    omega

/-- Witness for C1 at the 3-cycle network. -/
theorem claim_C1_witness :
    findCyclicalAgents exCycleNet = some ["A", "B", "C", "A"] ∧ OnCycle exCycleNet "A" :=
  ⟨rfl, claim_C1.1 exCycleNet ["A", "B", "C", "A"] rfl "A" (by decide)⟩

/-- Counterexample to C1 as stated: in `exMissedNet` the agent `D` lies on
the directed cycle `D → C → A → B → D`, yet `_find_cyclical_agents` returns
only `{A, B, C}`, so the result is not exactly the set of agents on cycles. -/
theorem claim_C1_counterexample :
    findCyclicalAgents exMissedNet = some ["A", "B", "C", "A"] ∧
    ¬ "D" ∈ ["A", "B", "C", "A"] ∧ OnCycle exMissedNet "D" := by
  refine ⟨rfl, by decide, ⟨["C", "A", "B", "D"], by simp, ?_, by decide⟩⟩
  show isEdge exMissedNet "D" "C" ∧ isEdge exMissedNet "C" "A" ∧
    isEdge exMissedNet "A" "B" ∧ isEdge exMissedNet "B" "D" ∧ True
  exact ⟨isEdge_of _ _ _ (by decide) (by decide) (by decide),
    isEdge_of _ _ _ (by decide) (by decide) (by decide),
    isEdge_of _ _ _ (by decide) (by decide) (by decide),
    isEdge_of _ _ _ (by decide) (by decide) (by decide), trivial⟩

/-- Claim C3: unreachable-agent analysis runs only when exactly one root
candidate exists, and then reports, sorted, exactly the agents present in
the mapping not reachable from that root via down_chains edges; the rooted
tree of the spec validates cleanly and the tree plus a disconnected `E` yields
exactly `{E}`. -/
theorem claim_C3 :
    (∀ (net : Network) (t : String), findAllTopAgents net = [t] →
      ∃ u errs, findUnreachableAgents net t = some u ∧
        validateNetworkStructure net = some errs ∧
        (∀ x, x ∈ u ↔ (present net x = true ∧ ¬ Reaches net t x)) ∧
        errs.count (unreachMsg u) = (if u.isEmpty then 0 else 1) ∧
        (∀ x, x ∈ pySortedSet u ↔ x ∈ u) ∧ List.Sorted pyLeP (pySortedSet u)) ∧
    (∀ (net : Network) (errs : List String), (findAllTopAgents net).length ≠ 1 →
      validateNetworkStructure net = some errs → ∀ d, ¬ unreachMsg d ∈ errs) ∧
    validateNetworkStructure exTreeNet = some [] ∧
    findUnreachableAgents exTreeENet "R" = some ["E"] := by
  refine ⟨?_, ?_, rfl, rfl⟩
  · intro net t ht
    obtain ⟨cyc, hcyc, hd⟩ := validate_decomp net
    rcases hd with ⟨t2, u, ht2, hu, h⟩ | ⟨hlen, h⟩
    · rw [ht] at ht2
      injection ht2 with he _
      subst he
      obtain ⟨u2, hu2, hiff⟩ := findUnreachableAgents_spec net t
      rw [hu] at hu2
      injection hu2 with he2
      subst he2
      refine ⟨u, _, hu, h, fun x => hiff x, ?_, fun x => mem_pySortedSet _ x,
        sorted_pySortedSet _⟩
      rw [List.count_append, List.count_append, count_unreachMsg_topErrs,
        count_unreach_cycErrs, count_unreach_unreachErrs]
      omega
    · rw [ht] at hlen
      simp at hlen
  · intro net errs hlen hv d
    obtain ⟨cyc, hcyc, hd⟩ := validate_decomp net
    rcases hd with ⟨t2, u, ht2, hu, h⟩ | ⟨_, h⟩
    · rw [ht2] at hlen
      simp at hlen
    · rw [hv] at h
      injection h with he
      rw [he]
      rw [mem_iff_count_ne, List.count_append, count_unreachMsg_topErrs,
        count_unreach_cycErrs]
      simp

/-- Witness for C3 at the tree plus disconnected `E`. -/
theorem claim_C3_witness :
    findAllTopAgents exTreeENet = ["R"] ∧
    ∃ u errs, findUnreachableAgents exTreeENet "R" = some u ∧
      validateNetworkStructure exTreeENet = some errs ∧
      (∀ x, x ∈ u ↔ (present exTreeENet x = true ∧ ¬ Reaches exTreeENet "R" x)) ∧
      errs.count (unreachMsg u) = (if u.isEmpty then 0 else 1) ∧
      (∀ x, x ∈ pySortedSet u ↔ x ∈ u) ∧ List.Sorted pyLeP (pySortedSet u) :=
  ⟨rfl, claim_C3.1 exTreeENet "R" rfl⟩

/-- Claim C9: for every network, including ones whose down_chains name
agents absent from the mapping, validate_network_structure terminates and
raises no exception (the embedding returns `some`), and a dangling name
never appears in the collected cycle set or unreachable set (both contain
only present agents). -/
theorem claim_C9 (net : Network) :
    ∃ errs, validateNetworkStructure net = some errs ∧
    (∃ cyc, findCyclicalAgents net = some cyc ∧ ∀ x ∈ cyc, present net x = true) ∧
    (∀ t, ∃ u, findUnreachableAgents net t = some u ∧
      ∀ x ∈ u, present net x = true) := by
  obtain ⟨errs, hv⟩ := validate_total net
  obtain ⟨cyc, hc⟩ := findCyclicalAgents_total net
  refine ⟨errs, hv, ⟨cyc, hc, ?_⟩, ?_⟩
  · intro x hx
    exact onCycle_present net x (findCyclicalAgents_sound net cyc hc x hx)
  · intro t
    obtain ⟨u, hu⟩ := findUnreachableAgents_total net t
    exact ⟨u, hu, findUnreachableAgents_sub net t u hu⟩

/-- Witness for C9 at the dangling-reference network. -/
theorem claim_C9_witness :
    (∃ errs, validateNetworkStructure exDangleNet = some errs ∧
      (∃ cyc, findCyclicalAgents exDangleNet = some cyc ∧
        ∀ x ∈ cyc, present exDangleNet x = true) ∧
      (∀ t, ∃ u, findUnreachableAgents exDangleNet t = some u ∧
        ∀ x ∈ u, present exDangleNet x = true)) ∧
    validateNetworkStructure exDangleNet = some [] :=
  ⟨claim_C9 exDangleNet, rfl⟩

theorem getTopAgent_inv (net : Network) (t : String)
    (h : getTopAgent net = some t) : findAllTopAgents net = [t] := by
  unfold getTopAgent at h
  cases ht : findAllTopAgents net with
  | nil => rw [ht] at h; simp at h
  | cons x rest =>
    cases rest with
    | nil =>
      rw [ht] at h
      simp at h
      rw [h]
    | cons y r2 =>
      rw [ht] at h
      simp at h

/-- Claim C4 (amended): rendering returns a single string and performs no
storage access (the embedding of `get_agent_network_hocon` neither reads nor
writes any file-system state), but it is not free of side effects on the
validator: the network mapping of the validator is unchanged exactly when the top
agent is already the first key; otherwise the call removes the top agent's
entry from the mapping of the validator (the reordered dict is bound only to a
local). -/
theorem claim_C4 (net : Network) (name doc : String) (netAfter : Network)
    (hnd : (net.map Prod.fst).Nodup)
    (h : getAgentNetworkHocon net name = some (doc, netAfter)) :
    ∃ t, getTopAgent net = some t ∧
      ((net.map Prod.fst).head? = some t → netAfter = net) ∧
      ((net.map Prod.fst).head? ≠ some t →
        netAfter = eraseKeyNet net t ∧ netAfter ≠ net) := by
  unfold getAgentNetworkHocon at h
  cases hg : getTopAgent net with
  | none => rw [hg] at h; simp at h
  | some t =>
    rw [hg] at h
    have htop : findAllTopAgents net = [t] := getTopAgent_inv net t hg
    have htk : t ∈ net.map Prod.fst :=
      findAllTopAgents_sub_keys net t (by rw [htop]; simp)
    refine ⟨t, rfl, ?_⟩
    cases hnet : net with
    | nil =>
      rw [hnet] at htk
      simp at htk
    | cons p0 rest =>
      obtain ⟨k0, ag0⟩ := p0
      subst hnet
      by_cases htk0 : t = k0
      · simp only [if_pos htk0] at h
        have hafter : netAfter = (k0, ag0) :: rest := by
          cases hr : renderAgents t ((k0, ag0) :: rest, (k0, ag0) :: rest).1 with
          | none => rw [hr] at h; simp at h
          | some blocks =>
            rw [hr] at h
            injection h with h1
            injection h1 with _ h2
            exact h2.symm
        constructor
        · intro _
          exact hafter
        · intro hne
          exact absurd (by simp [htk0]) hne
      · cases hlk : lookupA ((k0, ag0) :: rest) t with
        | none =>
          have hsome : (lookupA ((k0, ag0) :: rest) t).isSome = true :=
            (lookupA_isSome_iff _ t).mpr htk
          rw [hlk] at hsome
          simp at hsome
        | some cfg =>
          simp only [if_neg htk0, hlk] at h
          have hafter : netAfter = eraseKeyNet ((k0, ag0) :: rest) t := by
            cases hr : renderAgents t
                ((t, cfg) :: eraseKeyNet ((k0, ag0) :: rest) t,
                  eraseKeyNet ((k0, ag0) :: rest) t).1 with
            | none => rw [hr] at h; simp at h
            | some blocks =>
              rw [hr] at h
              injection h with h1
              injection h1 with _ h2
              exact h2.symm
          constructor
          · intro he
            simp at he
            exact absurd he.symm htk0
          · intro _
            refine ⟨hafter, ?_⟩
            intro heq
            have hlt := eraseKey_length_lt ((k0, ag0) :: rest) t htk
            rw [← hafter, heq] at hlt
            omega

/-- Witness for C4 at a valid network whose top agent is already first. -/
theorem claim_C4_witness :
    (exSmallTreeNet.map Prod.fst).Nodup ∧
    ∃ doc netAfter, getAgentNetworkHocon exSmallTreeNet "n" = some (doc, netAfter) ∧
      ∃ t, getTopAgent exSmallTreeNet = some t ∧
        ((exSmallTreeNet.map Prod.fst).head? = some t → netAfter = exSmallTreeNet) := by
  have hnd : (exSmallTreeNet.map Prod.fst).Nodup := by decide
  cases hq : getAgentNetworkHocon exSmallTreeNet "n" with
  | none => exact absurd hq (by decide)
  | some q =>
    obtain ⟨doc, netAfter⟩ := q
    obtain ⟨t, h1, h2, _⟩ := claim_C4 exSmallTreeNet "n" doc netAfter hnd hq
    exact ⟨hnd, doc, netAfter, rfl, t, h1, h2⟩

/-- Counterexample to C4 as stated: in `exMovedNet` the top agent `A` is not
the first key, and the call removes `A` from the mapping of the validator, so the
mapping is not unchanged. -/
theorem claim_C4_counterexample :
    (getAgentNetworkHocon exMovedNet "n").map (fun r => r.2) =
      some [("B", (⟨some "b", none⟩ : Agent))] ∧
    ([("B", (⟨some "b", none⟩ : Agent))] : Network) ≠ exMovedNet := by
  constructor
  · rfl
  · decide

/-- Claim C5: for every validated network and name, the rendered document is
the header, then the block of the unique root agent first, then the blocks of
the remaining agents in their original definition order with the original
position of the root skipped, then the trailer. -/
theorem claim_C5 (net : Network) (name : String)
    (hnd : (net.map Prod.fst).Nodup)
    (hv : validateNetworkStructure net = some [])
    (hk : validateNetworkKeywords net "instructions" = []) :
    ∃ (t : String) (ordered : Network) (doc : String) (netAfter : Network),
      findAllTopAgents net = [t] ∧
      getAgentNetworkHocon net name = some (doc, netAfter) ∧
      doc = HOCON_HEADER_START ++ name ++ HOCON_HEADER_REMAINDER ++
        strConcat (ordered.map (fun p => blockStr t p.1 p.2 (instrD p.2))) ++ "]\n\x7d\n" ∧
      ordered.map Prod.fst = t :: (net.map Prod.fst).filter (fun x => decide (¬ x = t)) ∧
      (∀ p ∈ ordered, lookupA net p.1 = some p.2) := by
  obtain ⟨t, ht⟩ := validated_top net hv
  have hins := keywords_instr_isSome net hk
  obtain ⟨ordered, hq, hkeys, hsub⟩ := getHocon_eq net name t hnd ht hins
  exact ⟨t, ordered, _, _, ht, hq, rfl, hkeys,
    fun p hp => lookupA_of_mem net p.1 p.2 hnd (by simpa using hsub p hp)⟩

/-- Witness for C5 at the 3-node tree `R → {B, C}`. -/
theorem claim_C5_witness :
    ∃ (t : String) (ordered : Network) (doc : String) (netAfter : Network),
      findAllTopAgents exSmallTreeNet = [t] ∧
      getAgentNetworkHocon exSmallTreeNet "n" = some (doc, netAfter) ∧
      doc = HOCON_HEADER_START ++ "n" ++ HOCON_HEADER_REMAINDER ++
        strConcat (ordered.map (fun p => blockStr t p.1 p.2 (instrD p.2))) ++ "]\n\x7d\n" ∧
      ordered.map Prod.fst =
        t :: (exSmallTreeNet.map Prod.fst).filter (fun x => decide (¬ x = t)) ∧
      (∀ p ∈ ordered, lookupA exSmallTreeNet p.1 = some p.2) :=
  claim_C5 exSmallTreeNet "n" (by decide) rfl rfl

set_option maxRecDepth 8192 in
/-- Claim C6: the block of each agent comes from exactly one of the three
templates — the top-agent template for the unique root, the regular template
for a non-root agent with a non-empty down_chains list, and the leaf
template (which contains no tools field) for a non-root agent whose
down_chains is absent or empty — and a non-empty down_chains list renders as
the child names individually double-quoted and joined by commas with no
trailing comma, in declared order. -/
theorem claim_C6 :
    (∀ (top : String) (ag : Agent) (i : String), ag.instructions = some i →
      renderBlock top top ag = some (TOP_AGENT_TEMPLATE top i (toolsFor ag))) ∧
    (∀ (top n : String) (ag : Agent) (i : String), ag.instructions = some i → n ≠ top →
      (agentDown ag ≠ [] →
        renderBlock top n ag = some (REGULAR_AGENT_TEMPLATE n i (toolsFor ag))) ∧
      (agentDown ag = [] →
        renderBlock top n ag = some (LEAF_NODE_AGENT_TEMPLATE n i))) ∧
    (∀ ag : Agent, agentDown ag ≠ [] →
      toolsFor ag = joinSep "," ((agentDown ag).map quoteName)) ∧
    (∀ ag : Agent, agentDown ag = [] → toolsFor ag = "") ∧
    ¬ pyIn "\"tools\"" (LEAF_NODE_AGENT_TEMPLATE "" "") := by
  refine ⟨?_, ?_, toolsFor_join, ?_, by decide⟩
  · intro top ag i hi
    unfold renderBlock
    rw [hi]
    dsimp only
    rw [if_pos rfl]
  · intro top n ag i hi hne
    constructor
    · intro hd
      unfold renderBlock
      rw [hi]
      dsimp only
      rw [if_neg hne, if_pos ((downTruthy_iff ag).mpr hd)]
    · intro hd
      unfold renderBlock
      rw [hi]
      have hnd : ¬ downTruthy ag = true := by
        rw [downTruthy_iff]
        simp [hd]
      dsimp only
      rw [if_neg hne, if_neg hnd]
  · intro ag hd
    unfold toolsFor
    rw [if_neg (by rw [downTruthy_iff]; simp [hd])]

/-- Witness for C6: a leaf block and a rendered down-chain list. -/
theorem claim_C6_witness :
    renderBlock "R" "B" ⟨some "b", none⟩ = some (LEAF_NODE_AGENT_TEMPLATE "B" "b") ∧
    toolsFor ⟨some "r", some ["B", "C"]⟩ = joinSep "," (["B", "C"].map quoteName) :=
  ⟨(claim_C6.2.1 "R" "B" ⟨some "b", none⟩ "b" rfl (by decide)).2 rfl,
   claim_C6.2.2.1 ⟨some "r", some ["B", "C"]⟩ (by decide)⟩

/-- Claim C10: for every sly_data, async_invoke leaves the value stored under
'agent_network_definition' unchanged (the definition is deep-copied before
validating and rendering, so even the pop done by the renderer cannot reach it), and
the only sly_data key whose binding can change is 'agent_network_name'. -/
theorem claim_C10 (argName : Option String) (sly : SlyData) (fs : FileSys)
    (out : String × SlyData × FileSys)
    (h : asyncInvoke argName sly fs = some out) :
    slyLookup out.2.1 "agent_network_definition" =
      slyLookup sly "agent_network_definition" ∧
    (∀ k, k ≠ "agent_network_name" → slyLookup out.2.1 k = slyLookup sly k) := by
  have key : (out.2.1 = sly ∨
      ∃ nm, out.2.1 = slySet sly "agent_network_name" (SlyVal.vstr nm)) →
      slyLookup out.2.1 "agent_network_definition" =
        slyLookup sly "agent_network_definition" ∧
      (∀ k, k ≠ "agent_network_name" → slyLookup out.2.1 k = slyLookup sly k) := by
    rintro (he | ⟨nm, he⟩)
    · rw [he]
      exact ⟨rfl, fun k _ => rfl⟩
    · rw [he]
      constructor
      · exact slySet_lookup_ne sly _ _ _ (by decide)
      · intro k hk
        exact slySet_lookup_ne sly _ _ _ hk
  apply key
  unfold asyncInvoke at h
  cases hdef : slyLookup sly "agent_network_definition" with
  | none =>
    rw [hdef] at h
    injection h with h1
    rw [← h1]
    left
    rfl
  | some v =>
    rw [hdef] at h
    cases v with
    | vstr s =>
      dsimp only at h
      by_cases hs : s = ""
      · rw [if_pos hs] at h
        injection h with h1
        rw [← h1]
        left
        rfl
      · rw [if_neg hs] at h
        simp at h
    | vnet ndef =>
      dsimp only at h
      by_cases hne : ndef.isEmpty
      · rw [if_pos hne] at h
        injection h with h1
        rw [← h1]
        left
        rfl
      · rw [if_neg hne] at h
        cases hv : validateNetworkStructure ndef with
        | none => rw [hv] at h; simp at h
        | some structErrs =>
          rw [hv] at h
          dsimp only at h
          by_cases herr : (structErrs ++ validateNetworkKeywords ndef "instructions").isEmpty
          · rw [if_neg (by simp [herr])] at h
            cases argName with
            | none =>
              injection h with h1
              rw [← h1]
              left
              rfl
            | some nm =>
              dsimp only at h
              by_cases hnm : nm = ""
              · rw [if_pos hnm] at h
                injection h with h1
                rw [← h1]
                left
                rfl
              · rw [if_neg hnm] at h
                cases hq : getAgentNetworkHocon ndef nm with
                | none => rw [hq] at h; simp at h
                | some q =>
                  obtain ⟨doc, after⟩ := q
                  rw [hq] at h
                  dsimp only at h
                  cases hm : modifyRegistry fs doc nm with
                  | none => rw [hm] at h; simp at h
                  | some fs1 =>
                    rw [hm] at h
                    injection h with h1
                    rw [← h1]
                    right
                    exact ⟨nm, rfl⟩
          · rw [if_pos (by simp [herr])] at h
            injection h with h1
            rw [← h1]
            left
            rfl

/-- Witness for C10 at a successful concrete invocation. -/
theorem claim_C10_witness :
    ∃ out, asyncInvoke (some "n") exSly exFs = some out ∧
      slyLookup out.2.1 "agent_network_definition" =
        slyLookup exSly "agent_network_definition" ∧
      (∀ k, k ≠ "agent_network_name" → slyLookup out.2.1 k = slyLookup exSly k) := by
  cases hq : asyncInvoke (some "n") exSly exFs with
  | none => exact absurd hq (by decide)
  | some out => exact ⟨out, rfl, claim_C10 (some "n") exSly exFs out hq⟩

theorem pyStarts_error (x : String) : pyStarts ("Error: " ++ x) "Error:" :=
  ⟨' ' :: x.data, rfl⟩

/-- Claim C8: async_invoke returns a string beginning with `Error:` and
performs no rendering and no file writes whenever (1) the sly-data network
definition is missing or empty, (2) structural plus instructions-keyword
validation yields a non-empty defect list, or (3) the agent_network_name
argument is missing or empty; only when none of these hold does it render
the document and perform the registry writes. -/
theorem claim_C8 :
    (∀ (argName : Option String) (sly : SlyData) (fs : FileSys),
      (slyLookup sly "agent_network_definition" = none ∨
       slyLookup sly "agent_network_definition" = some (SlyVal.vnet [])) →
      asyncInvoke argName sly fs = some ("Error: No network in sly data!", sly, fs) ∧
      pyStarts "Error: No network in sly data!" "Error:") ∧
    (∀ (argName : Option String) (sly : SlyData) (fs : FileSys) (ndef : Network)
      (structErrs : List String),
      slyLookup sly "agent_network_definition" = some (SlyVal.vnet ndef) → ndef ≠ [] →
      validateNetworkStructure ndef = some structErrs →
      structErrs ++ validateNetworkKeywords ndef "instructions" ≠ [] →
      asyncInvoke argName sly fs = some
        ("Error: " ++ pyListRepr (structErrs ++ validateNetworkKeywords ndef "instructions"),
         sly, fs) ∧
      pyStarts
        ("Error: " ++ pyListRepr (structErrs ++ validateNetworkKeywords ndef "instructions"))
        "Error:") ∧
    (∀ (argName : Option String) (sly : SlyData) (fs : FileSys) (ndef : Network),
      slyLookup sly "agent_network_definition" = some (SlyVal.vnet ndef) → ndef ≠ [] →
      validateNetworkStructure ndef = some [] →
      validateNetworkKeywords ndef "instructions" = [] →
      (argName = none ∨ argName = some "") →
      asyncInvoke argName sly fs = some ("Error: No agent_name provided.", sly, fs) ∧
      pyStarts "Error: No agent_name provided." "Error:") ∧
    (∀ (sly : SlyData) (fs : FileSys) (ndef : Network) (nm : String),
      slyLookup sly "agent_network_definition" = some (SlyVal.vnet ndef) → ndef ≠ [] →
      (ndef.map Prod.fst).Nodup →
      validateNetworkStructure ndef = some [] →
      validateNetworkKeywords ndef "instructions" = [] →
      nm ≠ "" →
      ∃ doc netAfter, getAgentNetworkHocon ndef nm = some (doc, netAfter) ∧
        asyncInvoke (some nm) sly fs =
          (modifyRegistry fs doc nm).map (fun fs1 =>
            (successMsg nm netAfter, slySet sly "agent_network_name" (SlyVal.vstr nm), fs1))) := by
  refine ⟨?_, ?_, ?_, ?_⟩
  · intro argName sly fs hdef
    refine ⟨?_, ⟨" No network in sly data!".data, rfl⟩⟩
    unfold asyncInvoke
    rcases hdef with hdef | hdef
    · rw [hdef]
    · rw [hdef]
      rfl
  · intro argName sly fs ndef structErrs hdef hne hv herr
    refine ⟨?_, pyStarts_error _⟩
    unfold asyncInvoke
    rw [hdef]
    dsimp only
    rw [if_neg (by simp [List.isEmpty_iff, hne])]
    rw [hv]
    dsimp only
    rw [if_pos (by rw [List.isEmpty_iff]; exact herr)]
  · intro argName sly fs ndef hdef hne hv hk harg
    refine ⟨?_, ⟨" No agent_name provided.".data, rfl⟩⟩
    unfold asyncInvoke
    rw [hdef]
    dsimp only
    rw [if_neg (by simp [List.isEmpty_iff, hne])]
    rw [hv]
    dsimp only
    rw [if_neg (by simp [hk])]
    rcases harg with harg | harg
    · rw [harg]
    · rw [harg]
      dsimp only
      rw [if_pos rfl]
  · intro sly fs ndef nm hdef hne hnd hv hk hnm
    obtain ⟨t, ht⟩ := validated_top ndef hv
    have hins := keywords_instr_isSome ndef hk
    obtain ⟨ordered, hq, _, _⟩ := getHocon_eq ndef nm t hnd ht hins
    refine ⟨_, _, hq, ?_⟩
    unfold asyncInvoke
    rw [hdef]
    dsimp only
    rw [if_neg (by simp [List.isEmpty_iff, hne])]
    rw [hv]
    dsimp only
    rw [if_neg (by simp [hk])]
    rw [if_neg hnm]
    rw [hq]
    dsimp only
    cases hm : modifyRegistry fs
        (HOCON_HEADER_START ++ nm ++ HOCON_HEADER_REMAINDER ++
          strConcat (ordered.map (fun p => blockStr t p.1 p.2 (instrD p.2))) ++ "]\n\x7d\n") nm with
    | none => rfl
    | some fs1 => rfl

/-- Witness for C8: the missing-definition error and a full successful run. -/
theorem claim_C8_witness :
    (asyncInvoke none ([] : SlyData) ([] : FileSys) =
      some ("Error: No network in sly data!", ([] : SlyData), ([] : FileSys))) ∧
    (∃ doc netAfter, getAgentNetworkHocon exSmallTreeNet "n" = some (doc, netAfter) ∧
      asyncInvoke (some "n") exSly exFs =
        (modifyRegistry exFs doc "n").map (fun fs1 =>
          (successMsg "n" netAfter, slySet exSly "agent_network_name" (SlyVal.vstr "n"), fs1))) :=
  ⟨(claim_C8.1 none [] [] (Or.inl rfl)).1,
   claim_C8.2.2.2 exSly exFs exSmallTreeNet "n" rfl (by decide) (by decide) rfl rfl
     (by decide)⟩
